import Mathlib

/-!
Verification of the dual-backend storage facade (StorageService).

Paths, object keys and URLs are modelled as lists of characters
(`Str := List Char`); byte buffers as lists of naturals.  The private
helpers `normalizeKey` and `normalizeDirKey` are translated from the
source together with the Node `path.normalize` (posix) routine they
call.  The object-store backend is modelled as an association list from
keys to byte lists, and the S3 listing/removal/probe protocols as
explicit page sequences and response values.
-/

set_option maxHeartbeats 1000000

namespace NestStorage

/-- Strings are modelled as lists of characters. -/
abbrev Str := List Char

/-- Byte buffers are modelled as lists of naturals (each below 256). -/
abbrev Bytes := List Nat

/-! ## Generic string helpers (JS string / regexp primitives) -/

/-- JS string comparison as used by Array.prototype.sort with no
comparator: lexicographic on code units. -/
def strLt : Str → Str → Bool
  | [], [] => false
  | [], _ :: _ => true
  | _ :: _, [] => false
  | x :: xs, y :: ys =>
    if x.toNat < y.toNat then true
    else if y.toNat < x.toNat then false
    else strLt xs ys

/-- Non-strict version of `strLt`, used as the sorting relation. -/
def strLe (a b : Str) : Bool := !(strLt b a)

/-- Insertion of an element into a sorted list of strings. -/
def insertSorted (x : Str) : List Str → List Str
  | [] => [x]
  | y :: ys => if strLe x y then x :: y :: ys else y :: insertSorted x ys

/-- JS Array.prototype.sort on an array of strings, modelled as
insertion sort over the code-unit order: a sorted permutation of the
input. -/
def sortStr : List Str → List Str
  | [] => []
  | x :: xs => insertSorted x (sortStr xs)

/-- Splitting a string at every occurrence of the character `c`
(the list of maximal chunks between occurrences). -/
def splitChar (c : Char) : Str → List Str
  | [] => [[]]
  | x :: xs =>
    match splitChar c xs with
    | [] => [[]]
    | s :: ss => if x = c then [] :: s :: ss else (x :: s) :: ss

/-- Joining chunks with a single separator character (inverse of
`splitChar` on separator-free chunks). -/
def joinSep (c : Char) : List Str → Str
  | [] => []
  | [s] => s
  | s :: t :: rest => s ++ c :: joinSep c (t :: rest)

/-- The global regexp replacement of every maximal run of `c` by a
single `d`, as in `.replace(/c+/g, d)`. -/
def replaceRuns (c d : Char) : Str → Str
  | [] => []
  | [x] => if x = c then [d] else [x]
  | x :: y :: xs =>
    if x = c then
      if y = c then replaceRuns c d (y :: xs) else d :: replaceRuns c d (y :: xs)
    else x :: replaceRuns c d (y :: xs)

/-- The replacement of a leading slash by a slash, as written in the
source (an identity rewrite). -/
def replaceLeadingSlash : Str → Str
  | [] => []
  | x :: xs => if x = '/' then '/' :: xs else x :: xs

/-- Removal of every trailing slash, as in the trailing-run regexp
replacement by the empty string. -/
def stripTrailingSlashes (l : Str) : Str :=
  (l.reverse.dropWhile (fun c => c = '/')).reverse

/-- JS String.replace with a plain-string pattern and empty-string
replacement: remove the first (leftmost) occurrence of `pat`. -/
def removeFirst (pat : Str) : Str → Str
  | [] => []
  | x :: xs =>
    if pat ≠ [] ∧ pat.isPrefixOf (x :: xs) then (x :: xs).drop pat.length
    else x :: removeFirst pat xs

/-- JS String.replace with a plain-string pattern: replace the first
(leftmost) occurrence of `pat` by `repl`. -/
def replaceFirstWith (pat repl : Str) : Str → Str
  | [] => []
  | x :: xs =>
    if pat ≠ [] ∧ pat.isPrefixOf (x :: xs) then repl ++ (x :: xs).drop pat.length
    else x :: replaceFirstWith pat repl xs

/-! ## Node path.normalize (posix) -/

/-- Whether the path starts with a forward slash. -/
def isAbsolutePath (l : Str) : Bool :=
  match l with
  | [] => false
  | x :: _ => x = '/'

/-- Whether the path ends with a forward slash. -/
def hasTrailingSep (l : Str) : Bool :=
  match l.getLast? with
  | some c => c = '/'
  | none => false

/-- One step of the Node normalizeString loop: process one path
segment, skipping empty and dot segments and resolving dot-dot
segments against the accumulator. -/
def normStep (allowAboveRoot : Bool) (acc : List Str) (seg : Str) : List Str :=
  if seg = [] ∨ seg = ['.'] then acc
  else if seg = ['.', '.'] then
    if acc ≠ [] ∧ acc.getLast? ≠ some ['.', '.'] then acc.dropLast
    else if allowAboveRoot then acc ++ [seg]
    else acc
  else acc ++ [seg]

/-- Node path.normalize for posix paths: resolve dot and dot-dot
segments, collapse separator runs, keep a leading slash for absolute
paths and a single trailing slash when the input had one. -/
def pathNormalize (p : Str) : Str :=
  if p = [] then ['.']
  else
    let abs := isAbsolutePath p
    let trail := hasTrailingSep p
    let res := (splitChar '/' p).foldl (normStep (!abs)) []
    let body := joinSep '/' res
    if body = [] then
      if abs then ['/'] else if trail then ['.', '/'] else ['.']
    else
      let body2 := if trail then body ++ ['/'] else body
      if abs then '/' :: body2 else body2

/-- Node path.join restricted to two arguments: the nonempty parts
joined by a slash, then normalized; the empty join gives a dot. -/
def pathJoin (a b : Str) : Str :=
  match ([a, b].filter (fun s => s ≠ [])) with
  | [] => ['.']
  | parts => pathNormalize (joinSep '/' parts)

/-! ## The two key-normalization helpers of StorageService -/

/-- StorageService.normalizeKey: path.normalize, then rewrite
backslash runs to a slash, collapse slash runs, rewrite a leading
slash to a slash, and strip trailing slashes. -/
def normalizeKey (key : Str) : Str :=
  stripTrailingSlashes (replaceLeadingSlash
    (replaceRuns '/' '/' (replaceRuns '\\' '/' (pathNormalize key))))

/-- StorageService.normalizeDirKey: path.normalize with a slash
appended, then rewrite backslash runs to a slash, collapse slash runs,
and rewrite a leading slash to a slash. -/
def normalizeDirKey (key : Str) : Str :=
  replaceLeadingSlash
    (replaceRuns '/' '/' (replaceRuns '\\' '/' (pathNormalize key ++ ['/'])))

/-! ## Predicates used by the verification -/

/-- The no-adjacent-separators relation. -/
def NoAdj (c : Char) : Char → Char → Prop := fun a b => ¬(a = c ∧ b = c)

/-- Invariant of the normalizeString accumulator: every segment is
nonempty, is not a dot, and is either an original segment (satisfying
Q) or a dot-dot; dot-dots form a leading run; and with allowAboveRoot
off (absolute paths) no dot-dot remains. -/
structure ResInv (aar : Bool) (Q : Str → Prop) (res : List Str) : Prop where
  ok : ∀ s ∈ res, (Q s ∨ s = ['.', '.']) ∧ s ≠ [] ∧ s ≠ ['.']
  ddLead : res.Chain' (fun a b => b = ['.', '.'] → a = ['.', '.'])
  noDDAbs : aar = false → ['.', '.'] ∉ res

/-- The canonical reassembly of a normalization result. -/
def assemble (abs trail : Bool) (res : List Str) : Str :=
  (if abs then ['/'] else []) ++ joinSep '/' res ++ (if trail then ['/'] else [])

/-! ## Byte buffers and file data -/

/-- UTF-8 encoding of one character, as Buffer.from produces for each
code point of a JS string. -/
def utf8EncodeChar (ch : Char) : Bytes :=
  let n := ch.toNat
  if n < 128 then [n]
  else if n < 2048 then [192 + n / 64, 128 + n % 64]
  else if n < 65536 then [224 + n / 4096, 128 + (n / 64) % 64, 128 + n % 64]
  else [240 + n / 262144, 128 + (n / 4096) % 64, 128 + (n / 64) % 64, 128 + n % 64]

/-- Buffer.from on a string: the UTF-8 bytes of its characters. -/
def bufferFromString (s : Str) : Bytes :=
  s.foldr (fun ch acc => utf8EncodeChar ch ++ acc) []

/-- The data argument of writeFile: a string or a byte buffer. -/
inductive FileData where
  | str (s : Str)
  | buf (b : Bytes)

/-- The coercion writeFile applies before storing: Buffer.from on a
string, identity on a buffer. -/
def FileData.toBuffer : FileData → Bytes
  | .str s => bufferFromString s
  | .buf b => b

/-! ## The store (one bucket, or the local tree under the prefix) -/

/-- A bucket of the object store, or the filesystem tree: a finite map
from keys to byte contents, as an association list with unique keys. -/
abbrev Store := List (Str × Bytes)

/-- Writing an object: the new binding replaces any previous one. -/
def storePut (st : Store) (k : Str) (v : Bytes) : Store :=
  (k, v) :: st.filter (fun e => e.1 ≠ k)

/-- Reading an object by exact key. -/
def storeGet (st : Store) (k : Str) : Option Bytes :=
  (st.find? (fun e => e.1 = k)).map (fun e => e.2)

/-- The configuration fields the modelled operations depend on. -/
structure Config where
  useFileSystem : Bool
  pfx : Str
  endpointCDN : Option Str

/-! ## File read and write (claim C1) -/

/-- StorageService.writeFile: filesystem mode writes the bytes at
path.join(prefix, filePath); object-store mode puts the body at the
normalized file key; a string body is coerced to a buffer first. -/
def writeFile (cfg : Config) (st : Store) (filePath : Str) (data : FileData) : Store :=
  if cfg.useFileSystem then
    storePut st (pathJoin cfg.pfx filePath) data.toBuffer
  else
    storePut st (normalizeKey filePath) data.toBuffer

/-- StorageService.readFile: filesystem mode reads the file at
path.join(prefix, filePath); object-store mode fetches the object at
the normalized file key.  When a CDN endpoint is configured the fetch
goes through a signed GET URL naming the same bucket and the same
normalized key with only the host rewritten, so it dereferences to the
same object of the bucket. -/
def readFile (cfg : Config) (st : Store) (filePath : Str) : Option Bytes :=
  if cfg.useFileSystem then
    storeGet st (pathJoin cfg.pfx filePath)
  else
    match cfg.endpointCDN with
    | some _ => storeGet st (normalizeKey filePath)
    | none => storeGet st (normalizeKey filePath)

/-! ## readdir over listing pages (claim C3) -/

/-- One page of a ListObjects response: object keys, common prefixes
and the truncation flag. -/
structure ListPage where
  contents : List Str
  commonPrefixes : List Str
  isTruncated : Bool

/-- The stripping applied to each returned entry: remove the first
occurrence of the queried prefix, then drop trailing slashes. -/
def stripEntry (pfx k : Str) : Str := stripTrailingSlashes (removeFirst pfx k)

/-- The entries one page contributes, in push order: object keys
first, then common prefixes, each stripped, empty results dropped. -/
def pageEntries (pfx : Str) (page : ListPage) : List Str :=
  ((page.contents.map (stripEntry pfx)).filter (fun k => k ≠ [])) ++
    ((page.commonPrefixes.map (stripEntry pfx)).filter (fun k => k ≠ []))

/-- The pagination loop of readdir: accumulate the entries of each
page; continue only while the page is truncated and its last Contents
key gives a nonempty marker; a missing next page is the error path,
which logs, stops, and keeps what was accumulated so far. -/
def readdirLoop (pfx : Str) (acc : List Str) : List ListPage → List Str
  | [] => acc
  | page :: rest =>
    let acc2 := acc ++ pageEntries pfx page
    if page.isTruncated then
      match page.contents.getLast? with
      | none => acc2
      | some k => if k = [] then acc2 else readdirLoop pfx acc2 rest
    else acc2

/-- StorageService.readdir in object-store mode, over the sequence of
pages the listing produces: collect every page, then sort. -/
def readdirS3 (folderPath : Str) (pages : List ListPage) : List Str :=
  sortStr (readdirLoop (normalizeDirKey folderPath) [] pages)

/-! ## rmdir and its backend requests (claims C4 and C10) -/

/-- A request issued to the object-store backend. -/
inductive S3Request where
  | listObjects (pfx : Str)
  | deleteObjects (keys : List Str)
deriving DecidableEq

/-- The first page of an undelimited listing: the keys under the
prefix in lexicographic order, cut at the page size, with the
truncation flag set when more remain. -/
def listFirstPage (pageSize : Nat) (pfx : Str) (st : Store) : List Str × Bool :=
  let matching := sortStr ((st.map (fun e => e.1)).filter
    (fun k => pfx.isPrefixOf k))
  (matching.take pageSize, decide (pageSize < matching.length))

/-- StorageService.rmdir in object-store mode: one ListObjects call on
the directory key (no delimiter, so only the first page of results is
seen), sort().reverse() on the collected keys, then a single
DeleteObjects call carrying exactly those keys.  Returns the issued
requests together with the store after the bulk delete. -/
def rmdirS3 (pageSize : Nat) (folderPath : Str) (st : Store) :
    List S3Request × Store :=
  let pfx := normalizeDirKey folderPath
  let page := (listFirstPage pageSize pfx st).1
  let keys := (sortStr page).reverse
  ([S3Request.listObjects pfx, S3Request.deleteObjects keys],
    st.filter (fun e => e.1 ∉ keys))

/-! ## exists (claim C5) -/

/-- The error surfaced by a failed HeadObject probe: the http status
code of its metadata, when one is present. -/
structure HeadErr where
  httpStatusCode : Option Nat
deriving DecidableEq

deriving instance DecidableEq for Except

/-- StorageService.exists in object-store mode, given the response
behavior of the HeadObject probe: probe the file key; on a 404 probe
the directory key, where success means true and any failure means
false; any non-404 error of the first probe is rethrown. -/
def existsS3 (head : Str → Except HeadErr Unit) (p : Str) : Except HeadErr Bool :=
  match head (normalizeKey p) with
  | .ok _ => .ok true
  | .error e =>
    if e.httpStatusCode = some 404 then
      match head (normalizeDirKey p) with
      | .ok _ => .ok true
      | .error _ => .ok false
    else .error e

/-! ## createWriteStream (claim C6) -/

/-- The terminal event observed on the pass-through stream returned by
createWriteStream. -/
inductive StreamEvent where
  | finish
  | destroyed (e : Str)
deriving DecidableEq

/-- The Upload parameters the source constructs. -/
structure UploadParams where
  queueSize : Nat
  partSize : Nat
  leavePartsOnError : Bool

/-- The Upload construction of createWriteStream: queue size defaults
to 4, the part size is clamped up to the 5 MiB floor, and parts are
not left behind on error. -/
def mkUploadParams (partSizeOpt queueSizeOpt : Option Nat) : UploadParams :=
  { queueSize := queueSizeOpt.getD 4
    partSize := max (partSizeOpt.getD (5 * 1024 * 1024)) (5 * 1024 * 1024)
    leavePartsOnError := false }

/-- The continuation wired onto upload.done(): completion emits finish
on the pass-through, failure destroys it with the error. -/
def writeStreamEvent (outcome : Except Str Unit) : StreamEvent :=
  match outcome with
  | .ok _ => StreamEvent.finish
  | .error e => StreamEvent.destroyed e

/-- Modelled from the spec: the multi-part Upload helper of the aws
sdk leaves already-uploaded parts behind after a failure only when
leavePartsOnError is set; otherwise the failed upload is aborted and
no parts remain. -/
def orphanedParts (params : UploadParams) (failed : Bool) (uploadedParts : Nat) : Nat :=
  if failed ∧ params.leavePartsOnError then uploadedParts else 0

/-! ## Signed URLs and the CDN rewrite (claim C7) -/

/-- A word character of the scheme-stripping regexp. -/
def isWordChar (ch : Char) : Bool := ch.isAlphanum || ch = '_'

/-- The scheme-stripping replacement applied to both endpoints: remove
a leading scheme-colon-slash-slash, or a bare leading double slash. -/
def stripScheme (l : Str) : Str :=
  if l.take 2 = ['/', '/'] then l.drop 2
  else
    let w := l.takeWhile isWordChar
    let rest := l.dropWhile isWordChar
    if w ≠ [] ∧ rest.take 3 = [':', '/', '/'] then rest.drop 3
    else l

/-- Modelled from the spec: the presigner builds the signed URL on the
configured endpoint (path style), appending the path-and-query
component carrying bucket, key and signature parameters. -/
def presignedUrl (endpoint pathAndQuery : Str) : Str := endpoint ++ pathAndQuery

/-- getSignedUrl in object-store mode: presign against the origin
endpoint; when a CDN endpoint is configured, replace the first
occurrence of the scheme-stripped origin endpoint in the URL by the
scheme-stripped CDN endpoint. -/
def getSignedUrlS3 (endpoint : Str) (endpointCDN : Option Str) (pathAndQuery : Str) : Str :=
  let url := presignedUrl endpoint pathAndQuery
  match endpointCDN with
  | some cdn => replaceFirstWith (stripScheme endpoint) (stripScheme cdn) url
  | none => url

/-- getSignedPutUrl in object-store mode: the same presign-and-rewrite
sequence as getSignedUrl, for a PUT command. -/
def getSignedPutUrlS3 (endpoint : Str) (endpointCDN : Option Str) (pathAndQuery : Str) : Str :=
  let url := presignedUrl endpoint pathAndQuery
  match endpointCDN with
  | some cdn => replaceFirstWith (stripScheme endpoint) (stripScheme cdn) url
  | none => url

end NestStorage

namespace NestStorage

/-! ## Lemmas about the string helpers -/

theorem twoStepInduction {motive : Str → Prop} (h0 : motive []) (h1 : ∀ x, motive [x])
    (h2 : ∀ x y xs, motive (y :: xs) → motive (x :: y :: xs)) : ∀ l, motive l
  | [] => h0
  | [x] => h1 x
  | x :: y :: xs => h2 x y xs (twoStepInduction h0 h1 h2 (y :: xs))

theorem head?_replaceRuns (c d : Char) (l : Str) :
    (replaceRuns c d l).head? = l.head?.map (fun e => if e = c then d else e) := by
  induction l using twoStepInduction with
  | h0 => rfl
  | h1 x => by_cases h : x = c <;> simp [replaceRuns, h]
  | h2 x y xs ih =>
    by_cases hx : x = c <;> by_cases hy : y = c <;>
      simp_all [replaceRuns, hx, hy]

theorem replaceRuns_ne_nil (c d : Char) (l : Str) (h : l ≠ []) : replaceRuns c d l ≠ [] := by
  have hh := head?_replaceRuns c d l
  cases l with
  | nil => exact absurd rfl h
  | cons x xs =>
    intro hcon
    rw [hcon] at hh
    simp at hh

theorem replaceRuns_cons_cons_run (c d y : Char) (xs : Str) (hy : y = c) :
    replaceRuns c d (c :: y :: xs) = replaceRuns c d (y :: xs) := by
  simp [replaceRuns, hy]

theorem replaceRuns_cons_cons_sep (c d x y : Char) (xs : Str) (hx : x = c) (hy : y ≠ c) :
    replaceRuns c d (x :: y :: xs) = d :: replaceRuns c d (y :: xs) := by
  subst hx; simp [replaceRuns, hy]

theorem replaceRuns_cons_cons_other (c d x y : Char) (xs : Str) (hx : x ≠ c) :
    replaceRuns c d (x :: y :: xs) = x :: replaceRuns c d (y :: xs) := by
  simp [replaceRuns, hx]

theorem getLast?_replaceRuns (c d : Char) (l : Str) :
    (replaceRuns c d l).getLast? = l.getLast?.map (fun e => if e = c then d else e) := by
  induction l using twoStepInduction with
  | h0 => rfl
  | h1 x => by_cases h : x = c <;> simp [replaceRuns, h]
  | h2 x y xs ih =>
    have hne : replaceRuns c d (y :: xs) ≠ [] := replaceRuns_ne_nil c d _ (by simp)
    have hcons : ∀ a : Char,
        (a :: replaceRuns c d (y :: xs)).getLast? = (replaceRuns c d (y :: xs)).getLast? := by
      intro a
      cases hrr : replaceRuns c d (y :: xs) with
      | nil => exact absurd hrr hne
      | cons r rs => rw [List.getLast?_cons_cons]
    have hys : (x :: y :: xs).getLast? = (y :: xs).getLast? := List.getLast?_cons_cons
    by_cases hx : x = c
    · by_cases hy : y = c
      · rw [hx, replaceRuns_cons_cons_run c d y xs hy, ih, List.getLast?_cons_cons]
      · rw [replaceRuns_cons_cons_sep c d x y xs hx hy, hcons d, ih, hys]
    · rw [replaceRuns_cons_cons_other c d x y xs hx, hcons x, ih, hys]

theorem mem_replaceRuns {c d e : Char} {l : Str} (h : e ∈ replaceRuns c d l) :
    e ∈ l ∨ e = d := by
  induction l using twoStepInduction with
  | h0 => simp [replaceRuns] at h
  | h1 x =>
    by_cases hx : x = c <;> simp [replaceRuns, hx] at h <;> simp [h]
  | h2 x y xs ih =>
    by_cases hx : x = c
    · by_cases hy : y = c
      · rw [hx, replaceRuns_cons_cons_run c d y xs hy] at h
        rcases ih h with h1 | h1
        · exact Or.inl (List.mem_cons_of_mem _ h1)
        · exact Or.inr h1
      · rw [replaceRuns_cons_cons_sep c d x y xs hx hy] at h
        rcases List.mem_cons.mp h with h1 | h1
        · exact Or.inr h1
        · rcases ih h1 with h2 | h2
          · exact Or.inl (List.mem_cons_of_mem _ h2)
          · exact Or.inr h2
    · rw [replaceRuns_cons_cons_other c d x y xs hx] at h
      rcases List.mem_cons.mp h with h1 | h1
      · exact Or.inl (by simp [h1])
      · rcases ih h1 with h2 | h2
        · exact Or.inl (List.mem_cons_of_mem _ h2)
        · exact Or.inr h2

theorem chain'_replaceRuns_self (c : Char) (l : Str) :
    (replaceRuns c c l).Chain' (NoAdj c) := by
  induction l using twoStepInduction with
  | h0 => simp [replaceRuns]
  | h1 x => by_cases hx : x = c <;> simp [replaceRuns, hx]
  | h2 x y xs ih =>
    by_cases hx : x = c
    · by_cases hy : y = c
      · rw [hx, replaceRuns_cons_cons_run c c y xs hy]; exact ih
      · have hhead : (replaceRuns c c (y :: xs)).head? = some y := by
          rw [head?_replaceRuns]; simp [hy]
        rw [replaceRuns_cons_cons_sep c c x y xs hx hy, List.chain'_cons']
        refine ⟨?_, ih⟩
        intro z hz
        rw [hhead] at hz
        simp only [Option.mem_def, Option.some.injEq] at hz
        subst hz
        exact fun hand => hy hand.2
    · rw [replaceRuns_cons_cons_other c c x y xs hx, List.chain'_cons']
      exact ⟨fun z _ hand => hx hand.1, ih⟩

theorem replaceRuns_self_of_chain' (c : Char) (l : Str)
    (h : l.Chain' (NoAdj c)) : replaceRuns c c l = l := by
  induction l using twoStepInduction with
  | h0 => rfl
  | h1 x => by_cases hx : x = c <;> simp [replaceRuns, hx]
  | h2 x y xs ih =>
    have hpair : NoAdj c x y := (List.chain'_cons.mp h).1
    have htail := (List.chain'_cons.mp h).2
    by_cases hx : x = c
    · have hy : y ≠ c := fun hyc => hpair ⟨hx, hyc⟩
      rw [replaceRuns_cons_cons_sep c c x y xs hx hy, ih htail, hx]
    · rw [replaceRuns_cons_cons_other c c x y xs hx, ih htail]

theorem replaceRuns_of_not_mem (c d : Char) (l : Str) (h : c ∉ l) : replaceRuns c d l = l := by
  induction l using twoStepInduction with
  | h0 => rfl
  | h1 x =>
    have hx : x ≠ c := fun hxc => h (by simp [hxc])
    simp [replaceRuns, hx]
  | h2 x y xs ih =>
    have hx : x ≠ c := fun hxc => h (by simp [hxc])
    simp only [replaceRuns, if_neg hx]
    rw [ih (fun hm => h (List.mem_cons_of_mem _ hm))]

theorem replaceLeadingSlash_eq (l : Str) : replaceLeadingSlash l = l := by
  cases l with
  | nil => rfl
  | cons x xs => by_cases hx : x = '/' <;> simp [replaceLeadingSlash, hx]

theorem getLast?_stripTrailingSlashes (l : Str) :
    (stripTrailingSlashes l).getLast? ≠ some '/' := by
  unfold stripTrailingSlashes
  rw [List.getLast?_reverse]
  have hh := List.head?_dropWhile_not (fun c => c = '/') l.reverse
  intro hcon
  rw [hcon] at hh
  simp at hh

theorem stripTrailingSlashes_front (l : Str) : stripTrailingSlashes l <+: l := by
  unfold stripTrailingSlashes
  have h := List.dropWhile_suffix (l := l.reverse) (fun c => c = '/')
  have h2 : (l.reverse.dropWhile (fun c => c = '/')).reverse <+: l.reverse.reverse :=
    List.reverse_prefix.mpr h
  simpa using h2

theorem head?_of_front {l m : Str} (h : m <+: l) (hm : m ≠ []) : m.head? = l.head? := by
  obtain ⟨t, rfl⟩ := h
  cases m with
  | nil => exact absurd rfl hm
  | cons x xs => rfl

theorem mem_of_mem_stripTrailingSlashes {e : Char} {l : Str}
    (h : e ∈ stripTrailingSlashes l) : e ∈ l :=
  (stripTrailingSlashes_front l).subset h

theorem stripTrailingSlashes_eq_self {l : Str} (h : l.getLast? ≠ some '/') :
    stripTrailingSlashes l = l := by
  unfold stripTrailingSlashes
  cases hr : l.reverse with
  | nil =>
    have : l = [] := by simpa using congrArg List.reverse hr
    simp [this]
  | cons x xs =>
    have hlx : l.getLast? = some x := by
      rw [List.getLast?_eq_head?_reverse, hr]; rfl
    have hx : ¬(x = '/') := fun hcon => h (hcon ▸ hlx)
    rw [List.dropWhile_cons, if_neg (by simp [hx]), ← hr, List.reverse_reverse]

theorem stripTrailingSlashes_append_slash (l : Str) :
    stripTrailingSlashes (l ++ ['/']) = stripTrailingSlashes l := by
  unfold stripTrailingSlashes
  rw [List.reverse_append]
  simp [List.dropWhile_cons]

end NestStorage

namespace NestStorage

/-! ## Lemmas about splitting and joining on a separator -/

theorem splitChar_ne_nil (c : Char) (l : Str) : splitChar c l ≠ [] := by
  cases l with
  | nil => simp [splitChar]
  | cons x xs =>
    simp only [splitChar]
    cases h : splitChar c xs with
    | nil => simp
    | cons s ss => by_cases hx : x = c <;> simp [hx]

theorem not_mem_of_mem_splitChar (c : Char) (l : Str) :
    ∀ s ∈ splitChar c l, c ∉ s := by
  induction l with
  | nil =>
    intro s hs
    simp [splitChar] at hs
    simp [hs]
  | cons x xs ih =>
    intro s hs
    simp only [splitChar] at hs
    cases h : splitChar c xs with
    | nil => exact absurd h (splitChar_ne_nil c xs)
    | cons t ts =>
      rw [h] at hs
      by_cases hx : x = c
      · simp only [hx, if_pos rfl] at hs
        rcases List.mem_cons.mp hs with h1 | h1
        · simp [h1]
        · exact ih s (by rw [h]; exact h1)
      · simp only [if_neg hx] at hs
        rcases List.mem_cons.mp hs with h1 | h1
        · subst h1
          intro hmem
          rcases List.mem_cons.mp hmem with h2 | h2
          · exact hx h2.symm
          · exact ih t (by rw [h]; simp) h2
        · exact ih s (by rw [h]; simp [h1])

theorem mem_of_mem_splitChar {c : Char} {l : Str} :
    ∀ s ∈ splitChar c l, ∀ a ∈ s, a ∈ l := by
  induction l with
  | nil =>
    intro s hs
    simp [splitChar] at hs
    simp [hs]
  | cons x xs ih =>
    intro s hs a ha
    simp only [splitChar] at hs
    cases h : splitChar c xs with
    | nil => exact absurd h (splitChar_ne_nil c xs)
    | cons t ts =>
      rw [h] at hs
      by_cases hx : x = c
      · simp only [hx, if_pos rfl] at hs
        rcases List.mem_cons.mp hs with h1 | h1
        · subst h1; simp at ha
        · exact List.mem_cons_of_mem _ (ih s (by rw [h]; exact h1) a ha)
      · simp only [if_neg hx] at hs
        rcases List.mem_cons.mp hs with h1 | h1
        · subst h1
          rcases List.mem_cons.mp ha with h2 | h2
          · simp [h2]
          · exact List.mem_cons_of_mem _ (ih t (by rw [h]; simp) a h2)
        · exact List.mem_cons_of_mem _ (ih s (by rw [h]; simp [h1]) a ha)

theorem splitChar_cons_sep (c : Char) (l : Str) :
    splitChar c (c :: l) = [] :: splitChar c l := by
  simp only [splitChar]
  cases h : splitChar c l with
  | nil => exact absurd h (splitChar_ne_nil c l)
  | cons s ss => simp

theorem splitChar_cons_other (c x : Char) (l : Str) (hx : x ≠ c) :
    splitChar c (x :: l) =
      (x :: (splitChar c l).headI) :: (splitChar c l).tail := by
  simp only [splitChar]
  cases h : splitChar c l with
  | nil => exact absurd h (splitChar_ne_nil c l)
  | cons s ss => simp [hx]

theorem splitChar_append_cons (c : Char) (s l : Str) (hs : c ∉ s) :
    splitChar c (s ++ c :: l) = s :: splitChar c l := by
  induction s with
  | nil => simpa using splitChar_cons_sep c l
  | cons x xs ih =>
    have hx : x ≠ c := fun hcon => hs (by simp [hcon])
    have hxs : c ∉ xs := fun hm => hs (List.mem_cons_of_mem _ hm)
    rw [List.cons_append, splitChar_cons_other c x _ hx, ih hxs]
    simp

theorem splitChar_of_not_mem (c : Char) (s : Str) (hs : c ∉ s) :
    splitChar c s = [s] := by
  induction s with
  | nil => rfl
  | cons x xs ih =>
    have hx : x ≠ c := fun hcon => hs (by simp [hcon])
    have hxs : c ∉ xs := fun hm => hs (List.mem_cons_of_mem _ hm)
    rw [splitChar_cons_other c x _ hx, ih hxs]
    simp

theorem splitChar_append_last (c : Char) (m : Str) :
    splitChar c (m ++ [c]) = splitChar c m ++ [[]] := by
  induction m with
  | nil => simpa using splitChar_cons_sep c []
  | cons x xs ih =>
    by_cases hx : x = c
    · subst hx
      rw [List.cons_append, splitChar_cons_sep, splitChar_cons_sep, ih]
      simp
    · rw [List.cons_append, splitChar_cons_other c x _ hx, ih,
        splitChar_cons_other c x _ hx]
      cases h : splitChar c xs with
      | nil => exact absurd h (splitChar_ne_nil c xs)
      | cons s ss => simp

theorem joinSep_cons_cons (c : Char) (s t : Str) (ts : List Str) :
    joinSep c (s :: t :: ts) = s ++ c :: joinSep c (t :: ts) := rfl

theorem joinSep_ne_nil (c : Char) (res : List Str) (h : res ≠ [])
    (h2 : ∀ s ∈ res, s ≠ []) : joinSep c res ≠ [] := by
  cases res with
  | nil => exact absurd rfl h
  | cons s rest =>
    cases rest with
    | nil => exact h2 s (by simp)
    | cons t ts => simp [joinSep_cons_cons]

theorem head?_joinSep (c : Char) (s : Str) (rest : List Str) (hs : s ≠ []) :
    (joinSep c (s :: rest)).head? = s.head? := by
  cases rest with
  | nil => rfl
  | cons t ts =>
    cases s with
    | nil => exact absurd rfl hs
    | cons a as => rfl

theorem getLast?_joinSep (c : Char) :
    ∀ (res : List Str) (s : Str), res.getLast? = some s →
      (∀ x ∈ res, x ≠ []) → (joinSep c res).getLast? = s.getLast? := by
  intro res
  induction res with
  | nil => intro s hs _; simp at hs
  | cons t ts ih =>
    intro s hs hall
    cases ts with
    | nil =>
      simp at hs
      subst hs
      rfl
    | cons u us =>
      have hlast : (u :: us).getLast? = some s := by
        rw [← List.getLast?_cons_cons (a := t)]
        exact hs
      have hj : joinSep c (u :: us) ≠ [] :=
        joinSep_ne_nil c _ (by simp) (fun x hx => hall x (List.mem_cons_of_mem _ hx))
      rw [joinSep_cons_cons, List.getLast?_append]
      have : (c :: joinSep c (u :: us)).getLast? = (joinSep c (u :: us)).getLast? := by
        cases hjj : joinSep c (u :: us) with
        | nil => exact absurd hjj hj
        | cons r rs => rw [List.getLast?_cons_cons]
      rw [this, ih s hlast (fun x hx => hall x (List.mem_cons_of_mem _ hx))]
      cases hsl : s.getLast? with
      | none =>
        exact absurd (by simpa using List.getLast?_eq_none_iff.mp hsl)
          (hall s (List.mem_of_getLast?_eq_some hs))
      | some a => rfl

theorem chain'_of_not_mem (c : Char) (s : Str) (hs : c ∉ s) :
    s.Chain' (NoAdj c) := by
  induction s with
  | nil => simp
  | cons x xs ih =>
    rw [List.chain'_cons']
    constructor
    · intro y _ hand
      exact hs (by simp [hand.1])
    · exact ih (fun hm => hs (List.mem_cons_of_mem _ hm))

theorem chain'_joinSep (c : Char) :
    ∀ (res : List Str), (∀ s ∈ res, s ≠ [] ∧ c ∉ s) →
      (joinSep c res).Chain' (NoAdj c) := by
  intro res
  induction res with
  | nil => simp [joinSep]
  | cons s rest ih =>
    intro hall
    cases rest with
    | nil => exact chain'_of_not_mem c s (hall s (by simp)).2
    | cons t ts =>
      rw [joinSep_cons_cons, List.chain'_append]
      refine ⟨chain'_of_not_mem c s (hall s (by simp)).2, ?_, ?_⟩
      · rw [List.chain'_cons']
        constructor
        · intro y hy hand
          have hh := head?_joinSep c t ts (hall t (by simp)).1
          rw [hh] at hy
          have hyt : y ∈ t := by
            cases t with
            | nil => simp at hy
            | cons a as =>
              simp only [List.head?_cons, Option.mem_def, Option.some.injEq] at hy
              simp [hy]
          exact (hall t (by simp)).2 (hand.2 ▸ hyt)
        · exact ih (fun x hx => hall x (List.mem_cons_of_mem _ hx))
      · intro x hx y hy hand
        have hxs : x ∈ s := List.mem_of_getLast?_eq_some hx
        exact (hall s (by simp)).2 (hand.1 ▸ hxs)

end NestStorage

namespace NestStorage

/-! ## The normalizeString accumulator invariant -/

theorem resInv_nil (aar : Bool) (Q : Str → Prop) : ResInv aar Q [] :=
  ⟨by simp, by simp, by simp⟩

theorem chain'_dropLast {α : Type} {R : α → α → Prop} {l : List α}
    (h : l.Chain' R) : l.dropLast.Chain' R :=
  List.Chain'.prefix h ( List.dropLast_prefix l)

theorem normStep_inv (aar : Bool) (Q : Str → Prop) (acc : List Str) (seg : Str)
    (hacc : ResInv aar Q acc) (hseg : Q seg) :
    ResInv aar Q (normStep aar acc seg) := by
  unfold normStep
  by_cases h1 : seg = [] ∨ seg = ['.']
  · simpa [h1] using hacc
  · rw [if_neg h1]
    by_cases h2 : seg = ['.', '.']
    · rw [if_pos h2]
      by_cases h3 : acc ≠ [] ∧ acc.getLast? ≠ some ['.', '.']
      · rw [if_pos h3]
        exact ⟨fun s hs => hacc.ok s (List.dropLast_subset acc hs),
          chain'_dropLast hacc.ddLead,
          fun ha hm => hacc.noDDAbs ha (List.dropLast_subset acc hm)⟩
      · rw [if_neg h3]
        by_cases h4 : aar
        · rw [if_pos h4]
          refine ⟨?_, ?_, ?_⟩
          · intro s hs
            rcases List.mem_append.mp hs with hs | hs
            · exact hacc.ok s hs
            · simp only [List.mem_singleton] at hs
              subst hs
              exact ⟨Or.inr h2, by rw [h2]; simp, by rw [h2]; simp⟩
          · rw [List.chain'_append]
            refine ⟨hacc.ddLead, by simp, ?_⟩
            intro x hx y hy _
            push_neg at h3
            have hne : acc ≠ [] := by
              intro hcon
              rw [hcon] at hx
              simp at hx
            have := h3 hne
            rw [this] at hx
            simp only [Option.mem_def, Option.some.injEq] at hx
            exact hx.symm
          · intro ha
            rw [ha] at h4
            simp at h4
        · rw [if_neg h4]
          exact hacc
    · rw [if_neg h2]
      push_neg at h1
      refine ⟨?_, ?_, ?_⟩
      · intro s hs
        rcases List.mem_append.mp hs with hs | hs
        · exact hacc.ok s hs
        · simp only [List.mem_singleton] at hs
          subst hs
          exact ⟨Or.inl hseg, h1.1, h1.2⟩
      · rw [List.chain'_append]
        exact ⟨hacc.ddLead, by simp, fun x _ y hy => by
          simp only [List.head?_cons, Option.mem_def, Option.some.injEq] at hy
          subst hy
          exact fun hcon => absurd hcon h2⟩
      · intro ha hm
        rcases List.mem_append.mp hm with hm | hm
        · exact hacc.noDDAbs ha hm
        · simp only [List.mem_singleton] at hm
          exact h2 hm.symm
    
theorem foldl_normStep_inv (aar : Bool) (Q : Str → Prop) :
    ∀ (segs : List Str) (acc : List Str), ResInv aar Q acc → (∀ s ∈ segs, Q s) →
      ResInv aar Q (segs.foldl (normStep aar) acc) := by
  intro segs
  induction segs with
  | nil => intro acc hacc _; simpa using hacc
  | cons s ss ih =>
    intro acc hacc hall
    rw [List.foldl_cons]
    exact ih _ (normStep_inv aar Q acc s hacc (hall s (by simp)))
      (fun x hx => hall x (by simp [hx]))

theorem isAbsolutePath_iff (l : Str) : isAbsolutePath l = true ↔ l.head? = some '/' := by
  cases l with
  | nil => simp [isAbsolutePath]
  | cons x xs => simp [isAbsolutePath]

theorem hasTrailingSep_iff (l : Str) : hasTrailingSep l = true ↔ l.getLast? = some '/' := by
  unfold hasTrailingSep
  cases h : l.getLast? with
  | none => simp
  | some c => simp

theorem pathNormalize_structure (p : Str) (hp : p ≠ []) :
    (pathNormalize p = ['.'] ∧ isAbsolutePath p = false) ∨
    (pathNormalize p = ['.', '/'] ∧ isAbsolutePath p = false) ∨
    (pathNormalize p = ['/'] ∧ isAbsolutePath p = true) ∨
    ∃ res, res ≠ [] ∧
      ResInv (!isAbsolutePath p) (fun s => '/' ∉ s ∧ ∀ a ∈ s, a ∈ p) res ∧
      pathNormalize p = assemble (isAbsolutePath p) (hasTrailingSep p) res := by
  have hres : ResInv (!isAbsolutePath p) (fun s => '/' ∉ s ∧ ∀ a ∈ s, a ∈ p)
      ((splitChar '/' p).foldl (normStep (!isAbsolutePath p)) []) :=
    foldl_normStep_inv _ _ _ [] (resInv_nil _ _)
      (fun s hs => ⟨not_mem_of_mem_splitChar '/' p s hs,
        fun a ha => mem_of_mem_splitChar s hs a ha⟩)
  unfold pathNormalize
  rw [if_neg hp]
  simp only []
  by_cases hbody : joinSep '/' ((splitChar '/' p).foldl (normStep (!isAbsolutePath p)) []) = []
  · rw [if_pos hbody]
    by_cases habs : isAbsolutePath p
    · right; right; left
      simp [habs]
    · by_cases htrail : hasTrailingSep p
      · right; left
        simp [habs, htrail]
      · left
        simp [habs, htrail]
  · rw [if_neg hbody]
    right; right; right
    refine ⟨(splitChar '/' p).foldl (normStep (!isAbsolutePath p)) [], ?_, hres, ?_⟩
    · intro hcon
      rw [hcon] at hbody
      exact hbody rfl
    · unfold assemble
      by_cases habs : isAbsolutePath p <;> by_cases htrail : hasTrailingSep p <;>
        simp [habs, htrail]

end NestStorage

namespace NestStorage

/-! ## Reassembled paths are fixed points of pathNormalize -/

theorem splitChar_joinSep (c : Char) :
    ∀ (res : List Str), res ≠ [] → (∀ s ∈ res, c ∉ s) →
      splitChar c (joinSep c res) = res := by
  intro res
  induction res with
  | nil => intro h; exact absurd rfl h
  | cons s rest ih =>
    intro _ hall
    cases rest with
    | nil => exact splitChar_of_not_mem c s (hall s (by simp))
    | cons t ts =>
      rw [joinSep_cons_cons, splitChar_append_cons c s _ (hall s (by simp)),
        ih (by simp) (fun x hx => hall x (List.mem_cons_of_mem _ hx))]

theorem chain'_dd_decomp :
    ∀ (l : List Str), l.Chain' (fun a b => b = ['.', '.'] → a = ['.', '.']) →
      ∃ k rest, l = List.replicate k ['.', '.'] ++ rest ∧ ['.', '.'] ∉ rest := by
  intro l
  induction l with
  | nil => exact fun _ => ⟨0, [], rfl, by simp⟩
  | cons x xs ih =>
    intro h
    have htail := (List.chain'_cons'.mp h).2
    obtain ⟨k, rest, hdecomp, hnot⟩ := ih htail
    by_cases hx : x = ['.', '.']
    · refine ⟨k + 1, rest, ?_, hnot⟩
      rw [List.replicate_succ, hx, hdecomp]
      rfl
    · refine ⟨0, x :: xs, by simp, ?_⟩
      intro hmem
      rcases List.mem_cons.mp hmem with h1 | h1
      · exact hx h1.symm
      · cases k with
        | zero =>
          simp only [List.replicate, List.nil_append] at hdecomp
          rw [hdecomp] at h1
          exact hnot h1
        | succ k0 =>
          have hhead : xs.head? = some ['.', '.'] := by
            rw [hdecomp, List.replicate_succ]
            rfl
          exact hx ((List.chain'_cons'.mp h).1 _ hhead rfl)

theorem foldl_normStep_normal (aar : Bool) :
    ∀ (segs : List Str) (acc : List Str),
      (∀ s ∈ segs, s ≠ [] ∧ s ≠ ['.'] ∧ s ≠ ['.', '.']) →
      segs.foldl (normStep aar) acc = acc ++ segs := by
  intro segs
  induction segs with
  | nil => simp
  | cons s ss ih =>
    intro acc hall
    rw [List.foldl_cons]
    have h := hall s (by simp)
    have hstep : normStep aar acc s = acc ++ [s] := by
      unfold normStep
      rw [if_neg (by simp [h.1, h.2.1]), if_neg h.2.2]
    rw [hstep, ih _ (fun x hx => hall x (by simp [hx])), List.append_assoc]
    rfl

theorem foldl_normStep_dots :
    ∀ (k : Nat) (acc : List Str), (acc = [] ∨ acc.getLast? = some ['.', '.']) →
      (List.replicate k ['.', '.']).foldl (normStep true) acc =
        acc ++ List.replicate k ['.', '.'] := by
  intro k
  induction k with
  | zero => simp
  | succ k0 ih =>
    intro acc hacc
    rw [List.replicate_succ, List.foldl_cons]
    have hstep : normStep true acc ['.', '.'] = acc ++ [['.', '.']] := by
      unfold normStep
      rw [if_neg (by simp), if_pos rfl]
      rcases hacc with h | h
      · rw [if_neg (by simp [h]), if_pos rfl]
      · rw [if_neg (by simp [h]), if_pos rfl]
    rw [hstep, ih (acc ++ [['.', '.']]) (Or.inr (List.getLast?_concat _)),
      List.append_assoc]
    rfl

theorem foldl_normStep_empty_seg (aar : Bool) (acc : List Str) :
    normStep aar acc [] = acc := by
  unfold normStep
  rw [if_pos (Or.inl rfl)]

theorem joinSep_getLast?_ne_slash (res : List Str) (hres : res ≠ [])
    (hok : ∀ s ∈ res, s ≠ [] ∧ '/' ∉ s) :
    (joinSep '/' res).getLast? ≠ some '/' := by
  obtain ⟨s, hs⟩ : ∃ s, res.getLast? = some s := by
    cases hr : res.getLast? with
    | none => exact absurd (List.getLast?_eq_none_iff.mp hr) hres
    | some s => exact ⟨s, rfl⟩
  have hsmem := List.mem_of_getLast?_eq_some hs
  rw [getLast?_joinSep '/' res s hs (fun x hx => (hok x hx).1)]
  intro hcon
  exact (hok s hsmem).2 (List.mem_of_getLast?_eq_some hcon)

theorem pathNormalize_assemble (abs trail : Bool) (res : List Str) (hres : res ≠ [])
    (hok : ∀ s ∈ res, s ≠ [] ∧ s ≠ ['.'] ∧ '/' ∉ s)
    (hdd : res.Chain' (fun a b => b = ['.', '.'] → a = ['.', '.']))
    (habs : abs = true → ['.', '.'] ∉ res) :
    pathNormalize (assemble abs trail res) = assemble abs trail res := by
  have hjoin_ne : joinSep '/' res ≠ [] :=
    joinSep_ne_nil '/' res hres (fun s hs => (hok s hs).1)
  have hslashfree : ∀ s ∈ res, '/' ∉ s := fun s hs => (hok s hs).2.2
  have hassemble_ne : assemble abs trail res ≠ [] := by
    unfold assemble
    cases abs <;> cases trail <;> simp [hjoin_ne]
  have hhead : (joinSep '/' res).head? ≠ some '/' := by
    obtain ⟨s, rest, rfl⟩ : ∃ s rest, res = s :: rest := by
      cases res with
      | nil => exact absurd rfl hres
      | cons s rest => exact ⟨s, rest, rfl⟩
    rw [head?_joinSep '/' s rest (hok s (by simp)).1]
    intro hcon
    exact (hok s (by simp)).2.2 (by
      cases s with
      | nil => simp at hcon
      | cons a as =>
        simp only [List.head?_cons, Option.some.injEq] at hcon
        simp [hcon])
  have habs_eq : isAbsolutePath (assemble abs trail res) = abs := by
    unfold assemble
    cases abs with
    | true => rfl
    | false =>
      cases hjs : joinSep '/' res with
      | nil => exact absurd hjs hjoin_ne
      | cons a as =>
        have ha : a ≠ '/' := by
          intro hcon
          exact hhead (by rw [hjs, hcon]; rfl)
        cases trail <;> simp [isAbsolutePath, ha]
  have hlast : (joinSep '/' res).getLast? ≠ some '/' :=
    joinSep_getLast?_ne_slash res hres (fun s hs => ⟨(hok s hs).1, (hok s hs).2.2⟩)
  have htrail_eq : hasTrailingSep (assemble abs trail res) = trail := by
    unfold assemble
    cases trail with
    | true =>
      rw [show (if (true : Bool) = true then (['/'] : Str) else []) = ['/'] from rfl]
      exact (hasTrailingSep_iff _).mpr (List.getLast?_concat _)
    | false =>
      rw [show (if (false : Bool) = true then (['/'] : Str) else []) = [] from rfl,
        List.append_nil]
      obtain ⟨a, ha⟩ : ∃ a, (joinSep '/' res).getLast? = some a := by
        cases hjl : (joinSep '/' res).getLast? with
        | none => exact absurd (List.getLast?_eq_none_iff.mp hjl) hjoin_ne
        | some a => exact ⟨a, rfl⟩
      have hane : a ≠ '/' := fun hcon => hlast (hcon ▸ ha)
      have hgl : ((if abs = true then ['/'] else []) ++ joinSep '/' res).getLast? = some a := by
        rw [List.getLast?_append, ha]
        rfl
      unfold hasTrailingSep
      rw [hgl]
      simp [hane]
  obtain ⟨k, rest, hr, hnot⟩ := chain'_dd_decomp res hdd
  have hk0 : abs = true → k = 0 := by
    intro ha
    cases k with
    | zero => rfl
    | succ k0 =>
      exact absurd (by rw [hr]; simp [List.replicate_succ]) (fun hm => habs ha hm)
  have hrest_normal : ∀ s ∈ rest, s ≠ [] ∧ s ≠ ['.'] ∧ s ≠ ['.', '.'] := by
    intro s hs
    have hmem : s ∈ res := by rw [hr]; exact List.mem_append.mpr (Or.inr hs)
    exact ⟨(hok s hmem).1, (hok s hmem).2.1, fun hcon => hnot (hcon ▸ hs)⟩
  have hsplit_inner : splitChar '/' ((if abs = true then ['/'] else []) ++ joinSep '/' res) =
      (if abs = true then [([] : Str)] else []) ++ res := by
    cases abs with
    | true =>
      rw [show ((if (true : Bool) = true then (['/'] : Str) else []) ++ joinSep '/' res) =
        '/' :: joinSep '/' res from rfl]
      rw [splitChar_cons_sep, splitChar_joinSep '/' res hres hslashfree]
      rfl
    | false =>
      rw [show ((if (false : Bool) = true then (['/'] : Str) else []) ++ joinSep '/' res) =
        joinSep '/' res from rfl]
      rw [splitChar_joinSep '/' res hres hslashfree]
      rfl
  have hsplit : splitChar '/' (assemble abs trail res) =
      ((if abs = true then [([] : Str)] else []) ++ res) ++
        (if trail = true then [([] : Str)] else []) := by
    unfold assemble
    cases trail with
    | true =>
      rw [show ((if abs = true then (['/'] : Str) else []) ++ joinSep '/' res ++
        (if (true : Bool) = true then (['/'] : Str) else [])) =
        ((if abs = true then (['/'] : Str) else []) ++ joinSep '/' res) ++ [('/' : Char)]
        from rfl]
      rw [splitChar_append_last, hsplit_inner]
      rfl
    | false =>
      rw [show ((if abs = true then (['/'] : Str) else []) ++ joinSep '/' res ++
        (if (false : Bool) = true then (['/'] : Str) else [])) =
        ((if abs = true then (['/'] : Str) else []) ++ joinSep '/' res) from by
          rw [show (if (false : Bool) = true then (['/'] : Str) else []) = [] from rfl,
            List.append_nil]]
      rw [hsplit_inner]
      rw [show (if (false : Bool) = true then ([([] : Str)]) else []) = ([] : List Str)
        from rfl, List.append_nil]
  have hfold_res : res.foldl (normStep (!abs)) [] = res := by
    rw [hr, List.foldl_append]
    cases habs2 : abs with
    | true =>
      rw [hk0 habs2]
      rw [show List.replicate 0 (['.', '.'] : Str) = [] from rfl]
      rw [List.foldl_nil, foldl_normStep_normal _ rest [] hrest_normal,
        List.nil_append]
    | false =>
      rw [show (!(false : Bool)) = true from rfl]
      rw [foldl_normStep_dots k [] (Or.inl rfl), List.nil_append,
        foldl_normStep_normal _ rest _ hrest_normal]
  have hfoldl : (splitChar '/' (assemble abs trail res)).foldl (normStep (!abs)) [] = res := by
    rw [hsplit, List.foldl_append, List.foldl_append]
    have hX : ((if abs = true then [([] : Str)] else []) : List Str).foldl
        (normStep (!abs)) [] = [] := by
      cases abs <;> simp [foldl_normStep_empty_seg]
    rw [hX, hfold_res]
    cases trail <;> simp [foldl_normStep_empty_seg]
  unfold pathNormalize
  rw [if_neg hassemble_ne]
  simp only [habs_eq, htrail_eq, hfoldl]
  rw [if_neg hjoin_ne]
  unfold assemble
  cases abs <;> cases trail <;> simp

end NestStorage

namespace NestStorage

/-! ## Output quality of the normalization pipeline -/

theorem pattern_not_mem_replaceRuns (c d : Char) (hdc : d ≠ c) (l : Str) :
    c ∉ replaceRuns c d l := by
  induction l using twoStepInduction with
  | h0 => simp [replaceRuns]
  | h1 x =>
    by_cases hx : x = c
    · simp only [replaceRuns, if_pos hx, List.mem_singleton]
      exact fun h => hdc h.symm
    · simp only [replaceRuns, if_neg hx, List.mem_singleton]
      exact fun h => hx h.symm
  | h2 x y xs ih =>
    by_cases hx : x = c
    · by_cases hy : y = c
      · rw [hx, replaceRuns_cons_cons_run c d y xs hy]
        exact ih
      · rw [replaceRuns_cons_cons_sep c d x y xs hx hy]
        intro hmem
        rcases List.mem_cons.mp hmem with h1 | h1
        · exact hdc h1.symm
        · exact ih h1
    · rw [replaceRuns_cons_cons_other c d x y xs hx]
      intro hmem
      rcases List.mem_cons.mp hmem with h1 | h1
      · exact hx h1.symm
      · exact ih h1

theorem replaceRuns_append_two (c : Char) :
    ∀ (m : Str), replaceRuns c c (m ++ [c, c]) = replaceRuns c c (m ++ [c]) := by
  intro m
  induction m with
  | nil => simp [replaceRuns]
  | cons x xs ih =>
    cases xs with
    | nil => by_cases hx : x = c <;> simp [replaceRuns, hx]
    | cons y ys =>
      simp only [List.cons_append] at ih
      rw [List.cons_append, List.cons_append, List.cons_append, List.cons_append]
      by_cases hx : x = c
      · by_cases hy : y = c
        · rw [hx, replaceRuns_cons_cons_run c c y _ hy,
            replaceRuns_cons_cons_run c c y _ hy]
          exact ih
        · rw [replaceRuns_cons_cons_sep c c x y _ hx hy,
            replaceRuns_cons_cons_sep c c x y _ hx hy, ih]
      · rw [replaceRuns_cons_cons_other c c x y _ hx,
          replaceRuns_cons_cons_other c c x y _ hx, ih]

theorem mem_joinSep {a c : Char} :
    ∀ {res : List Str}, a ∈ joinSep c res → a = c ∨ ∃ s ∈ res, a ∈ s := by
  intro res
  induction res with
  | nil => intro h; simp [joinSep] at h
  | cons s rest ih =>
    intro h
    cases rest with
    | nil => exact Or.inr ⟨s, by simp, h⟩
    | cons t ts =>
      rw [joinSep_cons_cons] at h
      rcases List.mem_append.mp h with h | h
      · exact Or.inr ⟨s, by simp, h⟩
      · rcases List.mem_cons.mp h with h | h
        · exact Or.inl h
        · rcases ih h with h | ⟨u, hu, hau⟩
          · exact Or.inl h
          · exact Or.inr ⟨u, List.mem_cons_of_mem _ hu, hau⟩

theorem mem_assemble {a : Char} {abs trail : Bool} {res : List Str}
    (h : a ∈ assemble abs trail res) : a = '/' ∨ ∃ s ∈ res, a ∈ s := by
  unfold assemble at h
  rcases List.mem_append.mp h with h | h
  · rcases List.mem_append.mp h with h | h
    · left
      cases abs <;> simp_all
    · exact mem_joinSep h
  · left
    cases trail <;> simp_all

theorem head?_joinSep_ne_slash (res : List Str) (hres : res ≠ [])
    (hok : ∀ s ∈ res, s ≠ [] ∧ '/' ∉ s) :
    (joinSep '/' res).head? ≠ some '/' := by
  obtain ⟨s, rest, rfl⟩ : ∃ s rest, res = s :: rest := by
    cases res with
    | nil => exact absurd rfl hres
    | cons s rest => exact ⟨s, rest, rfl⟩
  rw [head?_joinSep '/' s rest (hok s (by simp)).1]
  intro hcon
  exact (hok s (by simp)).2 (by
    cases s with
    | nil => simp at hcon
    | cons a as =>
      simp only [List.head?_cons, Option.some.injEq] at hcon
      simp [hcon])

theorem getLast?_abs_joinSep (abs : Bool) (res : List Str) (hres : res ≠ [])
    (hok : ∀ s ∈ res, s ≠ [] ∧ '/' ∉ s) :
    ((if abs = true then ['/'] else []) ++ joinSep '/' res).getLast? ≠ some '/' := by
  have hjoin_ne : joinSep '/' res ≠ [] :=
    joinSep_ne_nil '/' res hres (fun s hs => (hok s hs).1)
  have hlast := joinSep_getLast?_ne_slash res hres hok
  rw [List.getLast?_append]
  obtain ⟨a, ha⟩ : ∃ a, (joinSep '/' res).getLast? = some a := by
    cases hjl : (joinSep '/' res).getLast? with
    | none => exact absurd (List.getLast?_eq_none_iff.mp hjl) hjoin_ne
    | some a => exact ⟨a, rfl⟩
  rw [ha]
  intro hcon
  exact hlast (by rw [ha]; exact hcon)

theorem isAbsolutePath_assemble (abs trail : Bool) (res : List Str) (hres : res ≠ [])
    (hok : ∀ s ∈ res, s ≠ [] ∧ '/' ∉ s) :
    isAbsolutePath (assemble abs trail res) = abs := by
  have hjoin_ne : joinSep '/' res ≠ [] :=
    joinSep_ne_nil '/' res hres (fun s hs => (hok s hs).1)
  unfold assemble
  cases abs with
  | true => rfl
  | false =>
    cases hjs : joinSep '/' res with
    | nil => exact absurd hjs hjoin_ne
    | cons a as =>
      have ha : a ≠ '/' := by
        intro hcon
        exact head?_joinSep_ne_slash res hres hok (by rw [hjs, hcon]; rfl)
      cases trail <;> simp [isAbsolutePath, ha]

theorem hasTrailingSep_assemble (abs trail : Bool) (res : List Str) (hres : res ≠ [])
    (hok : ∀ s ∈ res, s ≠ [] ∧ '/' ∉ s) :
    hasTrailingSep (assemble abs trail res) = trail := by
  unfold assemble
  cases trail with
  | true =>
    rw [show (if (true : Bool) = true then (['/'] : Str) else []) = ['/'] from rfl]
    exact (hasTrailingSep_iff _).mpr (List.getLast?_concat _)
  | false =>
    rw [show (if (false : Bool) = true then (['/'] : Str) else []) = [] from rfl,
      List.append_nil]
    obtain ⟨a, ha⟩ : ∃ a,
        ((if abs = true then ['/'] else []) ++ joinSep '/' res).getLast? = some a := by
      cases hjl : ((if abs = true then ['/'] else []) ++ joinSep '/' res).getLast? with
      | none =>
        have := List.getLast?_eq_none_iff.mp hjl
        have hjoin_ne : joinSep '/' res ≠ [] :=
          joinSep_ne_nil '/' res hres (fun s hs => (hok s hs).1)
        cases abs <;> simp_all
      | some a => exact ⟨a, rfl⟩
    have hane : a ≠ '/' := by
      intro hcon
      exact getLast?_abs_joinSep abs res hres hok (hcon ▸ ha)
    unfold hasTrailingSep
    rw [ha]
    simp [hane]

theorem strip_assemble (abs trail : Bool) (res : List Str) (hres : res ≠ [])
    (hok : ∀ s ∈ res, s ≠ [] ∧ '/' ∉ s) :
    stripTrailingSlashes (assemble abs trail res) = assemble abs false res := by
  have hlast := getLast?_abs_joinSep abs res hres hok
  unfold assemble
  cases trail with
  | true =>
    rw [show ((if abs = true then (['/'] : Str) else []) ++ joinSep '/' res ++
      (if (true : Bool) = true then (['/'] : Str) else [])) =
      ((if abs = true then (['/'] : Str) else []) ++ joinSep '/' res) ++ [('/' : Char)]
      from rfl]
    rw [stripTrailingSlashes_append_slash, stripTrailingSlashes_eq_self hlast]
    rw [show (if (false : Bool) = true then (['/'] : Str) else []) = [] from rfl,
      List.append_nil]
  | false =>
    rw [show (if (false : Bool) = true then (['/'] : Str) else []) = [] from rfl,
      List.append_nil, stripTrailingSlashes_eq_self hlast]

theorem chain'_assemble (abs trail : Bool) (res : List Str) (hres : res ≠ [])
    (hok : ∀ s ∈ res, s ≠ [] ∧ '/' ∉ s) :
    (assemble abs trail res).Chain' (NoAdj '/') := by
  have hjoin_ne : joinSep '/' res ≠ [] :=
    joinSep_ne_nil '/' res hres (fun s hs => (hok s hs).1)
  have hjoin := chain'_joinSep '/' res hok
  have hhead := head?_joinSep_ne_slash res hres hok
  have hlast := getLast?_abs_joinSep abs res hres hok
  unfold assemble
  rw [List.chain'_append]
  refine ⟨?_, ?_, ?_⟩
  · rw [List.chain'_append]
    refine ⟨?_, hjoin, ?_⟩
    · cases abs <;> simp
    · intro x _ y hy hand
      exact hhead (by rw [hand.2] at hy; exact Option.mem_def.mp hy)
  · cases trail <;> simp
  · intro x hx y _ hand
    have hx2 : ((if abs = true then ['/'] else []) ++ joinSep '/' res).getLast? = some x :=
      Option.mem_def.mp hx
    rw [hand.1] at hx2
    exact hlast hx2

theorem pathNormalize_quality (l : Str) (hl : l ≠ []) :
    (pathNormalize l).Chain' (NoAdj '/') ∧
      (∀ a ∈ pathNormalize l, a = '/' ∨ a = '.' ∨ a ∈ l) := by
  rcases pathNormalize_structure l hl with ⟨hp, _⟩ | ⟨hp, _⟩ | ⟨hp, _⟩ |
    ⟨res, hne, hinv, hp⟩
  · rw [hp]
    constructor
    · simp [NoAdj]
    · intro a ha
      simp only [List.mem_singleton] at ha
      simp [ha]
  · rw [hp]
    constructor
    · rw [List.chain'_cons']
      refine ⟨?_, by simp⟩
      intro y hy hand
      exact absurd hand.1 (by decide)
    · intro a ha
      rcases List.mem_cons.mp ha with h | h
      · simp [h]
      · simp only [List.mem_singleton] at h
        simp [h]
  · rw [hp]
    constructor
    · simp [NoAdj]
    · intro a ha
      simp only [List.mem_singleton] at ha
      simp [ha]
  · rw [hp]
    have hok2 : ∀ s ∈ res, s ≠ [] ∧ '/' ∉ s := by
      intro s hs
      refine ⟨(hinv.ok s hs).2.1, ?_⟩
      rcases (hinv.ok s hs).1 with hq | hdd2
      · exact hq.1
      · rw [hdd2]; decide
    constructor
    · exact chain'_assemble _ _ res hne hok2
    · intro a ha
      rcases mem_assemble ha with h | ⟨s, hs, has⟩
      · exact Or.inl h
      · rcases (hinv.ok s hs).1 with hq | hdd2
        · exact Or.inr (Or.inr (hq.2 a has))
        · rw [hdd2] at has
          rcases List.mem_cons.mp has with h | h
          · exact Or.inr (Or.inl h)
          · simp only [List.mem_singleton] at h
            exact Or.inr (Or.inl h)

end NestStorage

namespace NestStorage

/-! ## Characterizations of the two key normalizers -/

theorem pathNormalize_no_backslash (l : Str) (hb : '\\' ∉ l) :
    '\\' ∉ pathNormalize l := by
  by_cases hl : l = []
  · subst hl
    decide
  · intro hm
    rcases (pathNormalize_quality l hl).2 _ hm with h | h | h
    · exact absurd h (by decide)
    · exact absurd h (by decide)
    · exact hb h

theorem normalizeKey_eq_strip (l : Str) (hb : '\\' ∉ l) :
    normalizeKey l = stripTrailingSlashes (pathNormalize l) := by
  unfold normalizeKey
  rw [replaceLeadingSlash_eq]
  by_cases hl : l = []
  · subst hl
    decide
  · rw [replaceRuns_of_not_mem _ _ _ (pathNormalize_no_backslash l hb),
      replaceRuns_self_of_chain' _ _ (pathNormalize_quality l hl).1]

theorem collapse_append_slash (n : Str) (hchain : n.Chain' (NoAdj '/')) :
    replaceRuns '/' '/' (n ++ ['/']) =
      (if n.getLast? = some '/' then n else n ++ ['/']) := by
  by_cases h : n.getLast? = some '/'
  · rw [if_pos h]
    obtain ⟨m, rfl⟩ := List.getLast?_eq_some_iff.mp h
    rw [show (m ++ ['/']) ++ ['/'] = m ++ ['/', '/'] from by
      rw [List.append_assoc]; rfl]
    rw [replaceRuns_append_two]
    exact replaceRuns_self_of_chain' _ _ hchain
  · rw [if_neg h]
    apply replaceRuns_self_of_chain'
    rw [List.chain'_append]
    refine ⟨hchain, by simp, ?_⟩
    intro x hx y _ hand
    have hx2 : n.getLast? = some x := Option.mem_def.mp hx
    rw [hand.1] at hx2
    exact h hx2

theorem normalizeDirKey_eq (l : Str) (hb : '\\' ∉ l) :
    normalizeDirKey l =
      (if (pathNormalize l).getLast? = some '/' then pathNormalize l
       else pathNormalize l ++ ['/']) := by
  unfold normalizeDirKey
  rw [replaceLeadingSlash_eq]
  by_cases hl : l = []
  · subst hl
    decide
  · have hnb : '\\' ∉ pathNormalize l ++ ['/'] := by
      intro hm
      rcases List.mem_append.mp hm with h | h
      · exact pathNormalize_no_backslash l hb h
      · simp at h
    rw [replaceRuns_of_not_mem _ _ _ hnb,
      collapse_append_slash _ (pathNormalize_quality l hl).1]

end NestStorage

namespace NestStorage

/-! ## Idempotence on backslash-free inputs -/

theorem normalizeKey_idem (l : Str) (hb : '\\' ∉ l) (hne : normalizeKey l ≠ []) :
    normalizeKey (normalizeKey l) = normalizeKey l := by
  by_cases hl : l = []
  · subst hl
    decide
  · rw [normalizeKey_eq_strip l hb] at hne ⊢
    rcases pathNormalize_structure l hl with ⟨hp, _⟩ | ⟨hp, _⟩ | ⟨hp, _⟩ |
      ⟨res, hres, hinv, hp⟩
    · rw [hp]
      decide
    · rw [hp]
      decide
    · rw [hp] at hne
      exact absurd (by decide) hne
    · rw [hp]
      have hok2 : ∀ s ∈ res, s ≠ [] ∧ '/' ∉ s := by
        intro s hs
        refine ⟨(hinv.ok s hs).2.1, ?_⟩
        rcases (hinv.ok s hs).1 with hq | hdd2
        · exact hq.1
        · rw [hdd2]; decide
      rw [strip_assemble _ _ res hres hok2]
      have hqb : '\\' ∉ assemble (isAbsolutePath l) false res := by
        intro hm
        rcases mem_assemble hm with h | ⟨s, hs, has⟩
        · exact absurd h (by decide)
        · rcases (hinv.ok s hs).1 with hq | hdd2
          · exact hb (hq.2 _ has)
          · rw [hdd2] at has
            rcases List.mem_cons.mp has with h | h
            · exact absurd h (by decide)
            · simp only [List.mem_singleton] at h
              exact absurd h (by decide)
      rw [normalizeKey_eq_strip _ hqb]
      have hok3 : ∀ s ∈ res, s ≠ [] ∧ s ≠ ['.'] ∧ '/' ∉ s := fun s hs =>
        ⟨(hok2 s hs).1, (hinv.ok s hs).2.2, (hok2 s hs).2⟩
      have habs : isAbsolutePath l = true → ['.', '.'] ∉ res := by
        intro ha
        apply hinv.noDDAbs
        rw [ha]
        rfl
      rw [pathNormalize_assemble (isAbsolutePath l) false res hres hok3 hinv.ddLead habs]
      rw [strip_assemble _ _ res hres hok2]

theorem normalizeDirKey_idem (l : Str) (hb : '\\' ∉ l) :
    normalizeDirKey (normalizeDirKey l) = normalizeDirKey l := by
  by_cases hl : l = []
  · subst hl
    decide
  · rw [normalizeDirKey_eq l hb]
    rcases pathNormalize_structure l hl with ⟨hp, _⟩ | ⟨hp, _⟩ | ⟨hp, _⟩ |
      ⟨res, hres, hinv, hp⟩
    · rw [hp]
      decide
    · rw [hp]
      decide
    · rw [hp]
      decide
    · rw [hp]
      have hok2 : ∀ s ∈ res, s ≠ [] ∧ '/' ∉ s := by
        intro s hs
        refine ⟨(hinv.ok s hs).2.1, ?_⟩
        rcases (hinv.ok s hs).1 with hq | hdd2
        · exact hq.1
        · rw [hdd2]; decide
      have hok3 : ∀ s ∈ res, s ≠ [] ∧ s ≠ ['.'] ∧ '/' ∉ s := fun s hs =>
        ⟨(hok2 s hs).1, (hinv.ok s hs).2.2, (hok2 s hs).2⟩
      have habs : isAbsolutePath l = true → ['.', '.'] ∉ res := by
        intro ha
        apply hinv.noDDAbs
        rw [ha]
        rfl
      have htrue_last : (assemble (isAbsolutePath l) true res).getLast? = some '/' :=
        (hasTrailingSep_iff _).mp (hasTrailingSep_assemble _ _ res hres hok2)
      have hd : (if (assemble (isAbsolutePath l) (hasTrailingSep l) res).getLast? = some '/'
          then assemble (isAbsolutePath l) (hasTrailingSep l) res
          else assemble (isAbsolutePath l) (hasTrailingSep l) res ++ ['/']) =
          assemble (isAbsolutePath l) true res := by
        cases htr : hasTrailingSep l with
        | true => rw [if_pos htrue_last]
        | false =>
          have hfalse_last : (assemble (isAbsolutePath l) false res).getLast? ≠ some '/' := by
            intro hcon
            have := (hasTrailingSep_iff (assemble (isAbsolutePath l) false res)).mpr hcon
            rw [hasTrailingSep_assemble _ _ res hres hok2] at this
            exact absurd this (by simp)
          rw [if_neg hfalse_last]
          unfold assemble
          rw [show (if (false : Bool) = true then (['/'] : Str) else []) = [] from rfl,
            List.append_nil]
          rfl
      rw [hd]
      have hdb : '\\' ∉ assemble (isAbsolutePath l) true res := by
        intro hm
        rcases mem_assemble hm with h | ⟨s, hs, has⟩
        · exact absurd h (by decide)
        · rcases (hinv.ok s hs).1 with hq | hdd2
          · exact hb (hq.2 _ has)
          · rw [hdd2] at has
            rcases List.mem_cons.mp has with h | h
            · exact absurd h (by decide)
            · simp only [List.mem_singleton] at h
              exact absurd h (by decide)
      rw [normalizeDirKey_eq _ hdb]
      rw [pathNormalize_assemble (isAbsolutePath l) true res hres hok3 hinv.ddLead habs]
      rw [if_pos htrue_last]

end NestStorage

namespace NestStorage

/-! ## Facts about normalizeKey used for claims C2 and C8 -/

theorem normalizeKey_chain' (l : Str) : (normalizeKey l).Chain' (NoAdj '/') := by
  unfold normalizeKey
  rw [replaceLeadingSlash_eq]
  exact List.Chain'.prefix (chain'_replaceRuns_self '/' _) (stripTrailingSlashes_front _)

theorem backslash_not_mem_normalizeKey (l : Str) : '\\' ∉ normalizeKey l := by
  unfold normalizeKey
  rw [replaceLeadingSlash_eq]
  intro hmem
  have h1 := mem_of_mem_stripTrailingSlashes hmem
  rcases mem_replaceRuns h1 with h2 | h2
  · exact pattern_not_mem_replaceRuns '\\' '/' (by decide) _ h2
  · exact absurd h2 (by decide)

theorem normalizeKey_getLast? (l : Str) : (normalizeKey l).getLast? ≠ some '/' := by
  unfold normalizeKey
  exact getLast?_stripTrailingSlashes _

theorem normalizeKey_head_slash (l : Str) (h : l.head? = some '/') :
    normalizeKey l = [] ∨ (normalizeKey l).head? = some '/' := by
  have hl : l ≠ [] := by
    intro hcon
    rw [hcon] at h
    simp at h
  have habs : isAbsolutePath l = true := (isAbsolutePath_iff l).mpr h
  have hpn : (pathNormalize l).head? = some '/' := by
    rcases pathNormalize_structure l hl with ⟨_, hf⟩ | ⟨_, hf⟩ | ⟨hp, _⟩ |
      ⟨res, _, _, hp⟩
    · rw [hf] at habs
      exact absurd habs (by simp)
    · rw [hf] at habs
      exact absurd habs (by simp)
    · rw [hp]
      rfl
    · rw [hp, habs]
      rfl
  have h2 : (replaceRuns '\\' '/' (pathNormalize l)).head? = some '/' := by
    rw [head?_replaceRuns, hpn]
    simp
  have h3 : (replaceRuns '/' '/' (replaceRuns '\\' '/' (pathNormalize l))).head? =
      some '/' := by
    rw [head?_replaceRuns, h2]
    simp
  by_cases hz : normalizeKey l = []
  · exact Or.inl hz
  · right
    unfold normalizeKey at hz ⊢
    rw [replaceLeadingSlash_eq] at hz ⊢
    rw [head?_of_front (stripTrailingSlashes_front _) hz]
    exact h3

theorem splitChar_assemble (abs : Bool) (res : List Str) (hres : res ≠ [])
    (hok : ∀ s ∈ res, s ≠ [] ∧ '/' ∉ s) :
    splitChar '/' (assemble abs false res) =
      (if abs = true then [([] : Str)] else []) ++ res := by
  unfold assemble
  rw [show (if (false : Bool) = true then (['/'] : Str) else []) = [] from rfl,
    List.append_nil]
  cases abs with
  | true =>
    rw [show ((if (true : Bool) = true then (['/'] : Str) else []) ++ joinSep '/' res) =
      '/' :: joinSep '/' res from rfl]
    rw [splitChar_cons_sep, splitChar_joinSep '/' res hres (fun s hs => (hok s hs).2)]
    rfl
  | false =>
    rw [show ((if (false : Bool) = true then (['/'] : Str) else []) ++ joinSep '/' res) =
      joinSep '/' res from rfl]
    rw [splitChar_joinSep '/' res hres (fun s hs => (hok s hs).2)]
    rfl

theorem normalizeKey_segments (l : Str) (hb : '\\' ∉ l) :
    normalizeKey l = ['.'] ∨
      ((∀ s ∈ splitChar '/' (normalizeKey l), s ≠ ['.']) ∧
        (splitChar '/' (normalizeKey l)).Chain'
          (fun a b => b = ['.', '.'] → a = ['.', '.'])) := by
  by_cases hl : l = []
  · subst hl
    left
    decide
  · rw [normalizeKey_eq_strip l hb]
    rcases pathNormalize_structure l hl with ⟨hp, _⟩ | ⟨hp, _⟩ | ⟨hp, _⟩ |
      ⟨res, hres, hinv, hp⟩
    · rw [hp]
      left
      decide
    · rw [hp]
      left
      decide
    · rw [hp]
      right
      refine ⟨by decide, ?_⟩
      rw [show stripTrailingSlashes ['/'] = ([] : Str) from by decide,
        show splitChar '/' ([] : Str) = [[]] from rfl]
      exact List.chain'_singleton _
    · rw [hp]
      have hok2 : ∀ s ∈ res, s ≠ [] ∧ '/' ∉ s := by
        intro s hs
        refine ⟨(hinv.ok s hs).2.1, ?_⟩
        rcases (hinv.ok s hs).1 with hq | hdd2
        · exact hq.1
        · rw [hdd2]; decide
      rw [strip_assemble _ _ res hres hok2,
        splitChar_assemble (isAbsolutePath l) res hres hok2]
      right
      constructor
      · intro s hs
        rcases List.mem_append.mp hs with h | h
        · cases habs2 : isAbsolutePath l with
          | true => rw [habs2] at h; simp at h; rw [h]; decide
          | false => rw [habs2] at h; simp at h
        · exact (hinv.ok s h).2.2
      · rw [List.chain'_append]
        refine ⟨?_, hinv.ddLead, ?_⟩
        · cases isAbsolutePath l <;> simp
        · intro x hx y hy hycon
          exfalso
          cases habs2 : isAbsolutePath l with
          | false =>
            rw [habs2] at hx
            simp at hx
          | true =>
            have hdd : ['.', '.'] ∉ res := by
              apply hinv.noDDAbs
              rw [habs2]
              rfl
            have hy2 : y ∈ res := by
              cases res with
              | nil => exact absurd rfl hres
              | cons r rs =>
                simp only [List.head?_cons, Option.mem_def, Option.some.injEq] at hy
                simp [hy]
            exact hdd (hycon ▸ hy2)

end NestStorage

namespace NestStorage

/-! ## Claim theorems: normalization (C2, C8, C9) -/

/-- C2 counterexample: the leading-separator rewrite of normalizeKey
replaces a leading slash by a slash, so the leading separator of the
input /a is NOT stripped and the result is not a relative key. -/
theorem C2_normalizeKey_counterexample :
    normalizeKey ['/', 'a'] = ['/', 'a'] ∧
      (normalizeKey ['/', 'a']).head? = some '/' := by
  decide

/-- C2 (amended): normalizeKey collapses runs of forward and backward
separators to a single forward slash (no adjacent slashes and no
backslash in the result), strips every trailing separator, and keeps
rather than strips a leading separator; on backslash-free inputs the
path-normalization step leaves no dot segment and leaves dot-dot
segments only as a leading run. -/
theorem C2_normalizeKey_amended (l : Str) :
    (normalizeKey l).Chain' (NoAdj '/') ∧
    '\\' ∉ normalizeKey l ∧
    (normalizeKey l).getLast? ≠ some '/' ∧
    (l.head? = some '/' → normalizeKey l = [] ∨ (normalizeKey l).head? = some '/') ∧
    ('\\' ∉ l → normalizeKey l = ['.'] ∨
      ((∀ s ∈ splitChar '/' (normalizeKey l), s ≠ ['.']) ∧
        (splitChar '/' (normalizeKey l)).Chain'
          (fun a b => b = ['.', '.'] → a = ['.', '.']))) :=
  ⟨normalizeKey_chain' l, backslash_not_mem_normalizeKey l,
    normalizeKey_getLast? l, normalizeKey_head_slash l, normalizeKey_segments l⟩

/-- C2 witness: the amended claim instantiated at the concrete
absolute input /a, with both hypotheses discharged. -/
theorem C2_normalizeKey_amended_witness :
    ((['/', 'a'] : Str).head? = some '/') ∧
    (normalizeKey ['/', 'a'] = [] ∨ (normalizeKey ['/', 'a']).head? = some '/') ∧
    ('\\' ∉ (['/', 'a'] : Str)) ∧
    (normalizeKey ['/', 'a'] = ['.'] ∨
      ((∀ s ∈ splitChar '/' (normalizeKey ['/', 'a']), s ≠ ['.']) ∧
        (splitChar '/' (normalizeKey ['/', 'a'])).Chain'
          (fun a b => b = ['.', '.'] → a = ['.', '.']))) :=
  ⟨by decide, (C2_normalizeKey_amended ['/', 'a']).2.2.2.1 (by decide), by decide,
    (C2_normalizeKey_amended ['/', 'a']).2.2.2.2 (by decide)⟩

/-- C8: for every input, normalizeDirKey yields exactly one trailing
delimiter (the result is m followed by one slash where m itself does
not end in a slash), and normalizeKey never yields a trailing
delimiter. -/
theorem C8_trailing_delimiters (l : Str) :
    (∃ m, normalizeDirKey l = m ++ ['/'] ∧ m.getLast? ≠ some '/') ∧
      (normalizeKey l).getLast? ≠ some '/' := by
  constructor
  · unfold normalizeDirKey
    rw [replaceLeadingSlash_eq]
    have h1 : (pathNormalize l ++ ['/']).getLast? = some '/' := List.getLast?_concat _
    have h2 : (replaceRuns '\\' '/' (pathNormalize l ++ ['/'])).getLast? = some '/' := by
      rw [getLast?_replaceRuns, h1]
      simp
    have h3 : (replaceRuns '/' '/'
        (replaceRuns '\\' '/' (pathNormalize l ++ ['/']))).getLast? = some '/' := by
      rw [getLast?_replaceRuns, h2]
      simp
    have hchain := chain'_replaceRuns_self '/'
      (replaceRuns '\\' '/' (pathNormalize l ++ ['/']))
    obtain ⟨m, hm⟩ := List.getLast?_eq_some_iff.mp h3
    refine ⟨m, hm, ?_⟩
    intro hcon
    rw [hm, List.chain'_append] at hchain
    exact (hchain.2.2 '/' (Option.mem_def.mpr hcon) '/' rfl) ⟨rfl, rfl⟩
  · exact getLast?_stripTrailingSlashes _

/-- C8 witness: the trailing-delimiter shape evaluated at the concrete
input a//b/ for both normalizers. -/
theorem C8_trailing_delimiters_witness :
    normalizeDirKey ['a', '/', '/', 'b', '/'] = ['a', '/', 'b'] ++ ['/'] ∧
      normalizeKey ['a', '/', '/', 'b', '/'] = ['a', '/', 'b'] := by
  decide

/-- C9 counterexample: normalizeKey is not idempotent; the root path
normalizes to the empty key, which then normalizes to the dot. -/
theorem C9_idempotence_counterexample :
    (normalizeKey (normalizeKey ['/']) ≠ normalizeKey ['/']) ∧
      normalizeKey ['/'] = [] ∧ normalizeKey (normalizeKey ['/']) = ['.'] := by
  decide

/-- C9 (amended): on inputs containing no backslash, normalizeDirKey
is idempotent, and normalizeKey is idempotent whenever its result is
nonempty. -/
theorem C9_idempotence_amended (l : Str) (hb : '\\' ∉ l) :
    normalizeDirKey (normalizeDirKey l) = normalizeDirKey l ∧
      (normalizeKey l ≠ [] → normalizeKey (normalizeKey l) = normalizeKey l) :=
  ⟨normalizeDirKey_idem l hb, normalizeKey_idem l hb⟩

/-- C9 witness: idempotence of both normalizers at the concrete input
a/b/. -/
theorem C9_idempotence_amended_witness :
    ('\\' ∉ (['a', '/', 'b', '/'] : Str)) ∧
    normalizeDirKey (normalizeDirKey ['a', '/', 'b', '/']) =
      normalizeDirKey ['a', '/', 'b', '/'] ∧
    normalizeKey (normalizeKey ['a', '/', 'b', '/']) = normalizeKey ['a', '/', 'b', '/'] :=
  ⟨by decide, (C9_idempotence_amended ['a', '/', 'b', '/'] (by decide)).1,
    (C9_idempotence_amended ['a', '/', 'b', '/'] (by decide)).2 (by decide)⟩

end NestStorage

namespace NestStorage

/-! ## The sort order of JS Array.prototype.sort on strings -/

theorem strLt_irrefl : ∀ (a : Str), strLt a a = false := by
  intro a
  induction a with
  | nil => rfl
  | cons x xs ih => simp [strLt, ih]

theorem strLt_trans : ∀ (a b c : Str), strLt a b = true → strLt b c = true →
    strLt a c = true
  | [], b, [], hab, hbc => by
    cases b with
    | nil => simp [strLt] at hab
    | cons y ys => simp [strLt] at hbc
  | [], _, _ :: _, _, _ => rfl
  | x :: xs, b, c, hab, hbc => by
    cases b with
    | nil => simp [strLt] at hab
    | cons y ys =>
      cases c with
      | nil => simp [strLt] at hbc
      | cons z zs =>
        simp only [strLt] at hab hbc ⊢
        by_cases hxy : x.toNat < y.toNat
        · by_cases hyz : y.toNat < z.toNat
          · rw [if_pos (Nat.lt_trans hxy hyz)]
          · rw [if_neg hyz] at hbc
            by_cases hzy : z.toNat < y.toNat
            · rw [if_pos hzy] at hbc
              exact absurd hbc (by simp)
            · rw [if_neg hzy] at hbc
              rw [if_pos (show x.toNat < z.toNat by omega)]
        · rw [if_neg hxy] at hab
          by_cases hyx : y.toNat < x.toNat
          · rw [if_pos hyx] at hab
            exact absurd hab (by simp)
          · rw [if_neg hyx] at hab
            by_cases hyz : y.toNat < z.toNat
            · rw [if_pos (show x.toNat < z.toNat by omega)]
            · rw [if_neg hyz] at hbc
              by_cases hzy : z.toNat < y.toNat
              · rw [if_pos hzy] at hbc
                exact absurd hbc (by simp)
              · rw [if_neg hzy] at hbc
                rw [if_neg (show ¬ x.toNat < z.toNat by omega),
                  if_neg (show ¬ z.toNat < x.toNat by omega)]
                exact strLt_trans xs ys zs hab hbc

theorem strLe_total (a b : Str) : (strLe a b || strLe b a) = true := by
  unfold strLe
  by_cases h1 : strLt b a = true
  · by_cases h2 : strLt a b = true
    · have := strLt_trans a b a h2 h1
      rw [strLt_irrefl] at this
      exact absurd this (by simp)
    · simp [Bool.not_eq_true] at h2
      simp [h2]
  · simp [Bool.not_eq_true] at h1
    simp [h1]

theorem char_toNat_inj {x y : Char} (h : x.toNat = y.toNat) : x = y := by
  have h2 := Char.ofNat_toNat x
  rw [h, Char.ofNat_toNat] at h2
  exact h2.symm

theorem strLt_connex : ∀ (a b : Str), strLt a b = false → strLt b a = false → a = b
  | [], [], _, _ => rfl
  | [], _ :: _, hab, _ => by simp [strLt] at hab
  | _ :: _, [], _, hba => by simp [strLt] at hba
  | x :: xs, y :: ys, hab, hba => by
    simp only [strLt] at hab hba
    by_cases hxy : x.toNat < y.toNat
    · rw [if_pos hxy] at hab
      exact absurd hab (by simp)
    · rw [if_neg hxy] at hab
      by_cases hyx : y.toNat < x.toNat
      · rw [if_pos hyx] at hba
        exact absurd hba (by simp)
      · rw [if_neg hyx] at hab
        rw [if_neg hyx, if_neg hxy] at hba
        have hchar : x = y := char_toNat_inj (by omega)
        rw [hchar, strLt_connex xs ys hab hba]

theorem strLe_trans (a b c : Str) (hab : strLe a b) (hbc : strLe b c) : strLe a c := by
  unfold strLe at hab hbc ⊢
  rw [Bool.not_eq_true'] at hab hbc ⊢
  by_cases hca : strLt c a = true
  · by_cases hab2 : strLt a b = true
    · have h := strLt_trans c a b hca hab2
      rw [hbc] at h
      exact absurd h (by simp)
    · have heq : a = b := strLt_connex a b (Bool.not_eq_true _ ▸ hab2) hab
      subst heq
      rw [hbc] at hca
      exact absurd hca (by simp)
  · rwa [Bool.not_eq_true] at hca

end NestStorage

namespace NestStorage

/-! ## The insertion sort is a sorted permutation -/

theorem insertSorted_perm (x : Str) (l : List Str) : (insertSorted x l).Perm (x :: l) := by
  induction l with
  | nil => exact List.Perm.refl _
  | cons y ys ih =>
    unfold insertSorted
    by_cases h : strLe x y = true
    · rw [if_pos h]
    · rw [if_neg h]
      exact (ih.cons y).trans (List.Perm.swap x y ys)

theorem sortStr_perm (l : List Str) : (sortStr l).Perm l := by
  induction l with
  | nil => exact List.Perm.refl _
  | cons x xs ih => exact (insertSorted_perm x (sortStr xs)).trans (ih.cons x)

theorem strLe_of_not_strLe {a b : Str} (h : ¬ strLe a b = true) : strLe b a = true := by
  have htot := strLe_total a b
  cases hab : strLe a b with
  | true => exact absurd hab h
  | false =>
    rw [hab] at htot
    simpa using htot

theorem pairwise_insertSorted (x : Str) (l : List Str)
    (hl : l.Pairwise (fun a b => strLe a b = true)) :
    (insertSorted x l).Pairwise (fun a b => strLe a b = true) := by
  induction l with
  | nil => simp [insertSorted]
  | cons y ys ih =>
    rcases List.pairwise_cons.mp hl with ⟨hy, hys⟩
    unfold insertSorted
    by_cases h : strLe x y = true
    · rw [if_pos h, List.pairwise_cons]
      refine ⟨?_, hl⟩
      intro b hb
      rcases List.mem_cons.mp hb with hb | hb
      · rw [hb]
        exact h
      · exact strLe_trans x y b h (hy b hb)
    · rw [if_neg h, List.pairwise_cons]
      refine ⟨?_, ih hys⟩
      intro b hb
      have hb2 := (insertSorted_perm x ys).mem_iff.mp hb
      rcases List.mem_cons.mp hb2 with hb2 | hb2
      · rw [hb2]
        exact strLe_of_not_strLe h
      · exact hy b hb2

theorem sortStr_pairwise (l : List Str) :
    (sortStr l).Pairwise (fun a b => strLe a b = true) := by
  induction l with
  | nil => simp [sortStr]
  | cons x xs ih => exact pairwise_insertSorted x (sortStr xs) ih

theorem sortStr_of_pairwise :
    ∀ (l : List Str), l.Pairwise (fun a b => strLe a b = true) → sortStr l = l := by
  intro l
  induction l with
  | nil => intro _; rfl
  | cons x xs ih =>
    intro h
    rcases List.pairwise_cons.mp h with ⟨hx, hxs⟩
    unfold sortStr
    rw [ih hxs]
    cases xs with
    | nil => rfl
    | cons y ys =>
      unfold insertSorted
      rw [if_pos (hx y (by simp))]

/-! ## Claim C1: write-then-read round trip -/

theorem storeGet_storePut (st : Store) (k : Str) (v : Bytes) :
    storeGet (storePut st k v) k = some v := by
  unfold storeGet storePut
  rw [List.find?_cons_of_pos _ (by simp)]
  rfl

/-- C1: writeFile followed by readFile on the same path returns the
written data bit for bit, in filesystem mode and in object-store mode
(with or without a CDN endpoint configured); a string body is coerced
to its byte buffer before storage. -/
theorem C1_write_read_roundtrip (cfg : Config) (st : Store) (p : Str) (data : FileData) :
    readFile cfg (writeFile cfg st p data) p = some data.toBuffer := by
  unfold readFile writeFile
  by_cases hfs : cfg.useFileSystem = true
  · rw [if_pos hfs, if_pos hfs, storeGet_storePut]
  · rw [if_neg hfs, if_neg hfs]
    cases cfg.endpointCDN <;> exact storeGet_storePut _ _ _

/-! ## Claim C3: readdir over listing pages -/

theorem pageEntries_ne_nil (pfx : Str) (page : ListPage) :
    ∀ x ∈ pageEntries pfx page, x ≠ [] := by
  intro x hx
  unfold pageEntries at hx
  rcases List.mem_append.mp hx with h | h <;>
    · have := (List.mem_filter.mp h).2
      simpa using this

theorem readdirLoop_ne_nil (pfx : Str) :
    ∀ (pages : List ListPage) (acc : List Str), (∀ x ∈ acc, x ≠ []) →
      ∀ x ∈ readdirLoop pfx acc pages, x ≠ [] := by
  intro pages
  induction pages with
  | nil =>
    intro acc hacc
    simpa [readdirLoop] using hacc
  | cons page rest ih =>
    intro acc hacc x hx
    have hacc2 : ∀ y ∈ acc ++ pageEntries pfx page, y ≠ [] := by
      intro y hy
      rcases List.mem_append.mp hy with h | h
      · exact hacc y h
      · exact pageEntries_ne_nil pfx page y h
    unfold readdirLoop at hx
    by_cases ht : page.isTruncated = true
    · rw [if_pos ht] at hx
      cases hgl : page.contents.getLast? with
      | none =>
        simp only [hgl] at hx
        exact hacc2 x hx
      | some k =>
        simp only [hgl] at hx
        by_cases hk : k = []
        · rw [if_pos hk] at hx
          exact hacc2 x hx
        · rw [if_neg hk] at hx
          exact ih _ hacc2 x hx
    · rw [if_neg ht] at hx
      exact hacc2 x hx

/-- C3 counterexample: with the pagination marker taken from the last
Contents key, a common prefix returned on two successive pages is
collected twice; the final sorted listing contains a duplicate entry,
so readdir does NOT deduplicate. -/
theorem C3_readdir_counterexample :
    readdirS3 ['p'] [⟨[['p', '/', 'a']], [['p', '/', 'b', '/']], true⟩,
        ⟨[['p', '/', 'c']], [['p', '/', 'b', '/']], false⟩] =
      [['a'], ['b'], ['b'], ['c']] ∧
    ¬ (readdirS3 ['p'] [⟨[['p', '/', 'a']], [['p', '/', 'b', '/']], true⟩,
        ⟨[['p', '/', 'c']], [['p', '/', 'b', '/']], false⟩]).Nodup := by
  constructor
  · decide
  · decide

/-- C3 (amended): over every sequence of listing pages, readdir
returns the entries collected by the pagination loop (stripped of the
queried prefix and of trailing delimiters, empty entries discarded)
sorted lexicographically, as a permutation of the collected entries:
entries are NOT deduplicated, so an entry collected on several pages
appears several times. -/
theorem C3_readdir_amended (folderPath : Str) (pages : List ListPage) :
    (readdirS3 folderPath pages).Pairwise (fun a b => strLe a b = true) ∧
    (readdirS3 folderPath pages).Perm
      (readdirLoop (normalizeDirKey folderPath) [] pages) ∧
    [] ∉ readdirS3 folderPath pages := by
  refine ⟨?_, ?_, ?_⟩
  · exact sortStr_pairwise _
  · exact sortStr_perm _
  · intro hmem
    have hperm := sortStr_perm (readdirLoop (normalizeDirKey folderPath) [] pages)
    exact readdirLoop_ne_nil (normalizeDirKey folderPath) pages [] (by simp) []
      (hperm.subset hmem) rfl

end NestStorage

namespace NestStorage

/-! ## Claims C4 and C10: rmdir -/

/-- C4 counterexample: rmdir sends a single un-paginated ListObjects;
with a page size of 1 and two objects under the prefix, the bulk
delete covers only the first page and an object under the prefix
survives. -/
theorem C4_rmdir_counterexample :
    (rmdirS3 1 ['a'] [(['a', '/', 'x'], []), (['a', '/', 'y'], [])]).2 =
      [(['a', '/', 'y'], [])] ∧
    (normalizeDirKey ['a']).isPrefixOf ['a', '/', 'y'] = true := by
  decide

/-- C4 (amended): rmdir lists objects under the directory-key prefix
with a single list call (first page only, no pagination), sorts the
matched keys in reverse lexicographic order, and issues exactly one
bulk delete with those keys; when every object under the prefix fits
in one listing page, the delete carries exactly the reverse-sorted
matched keys and afterwards no object under the prefix remains. -/
theorem C4_rmdir_amended (pageSize : Nat) (folderPath : Str) (st : Store)
    (h : ((st.map (fun e => e.1)).filter
      (fun k => (normalizeDirKey folderPath).isPrefixOf k)).length ≤ pageSize) :
    (rmdirS3 pageSize folderPath st).1 =
      [S3Request.listObjects (normalizeDirKey folderPath),
       S3Request.deleteObjects ((sortStr ((st.map (fun e => e.1)).filter
         (fun k => (normalizeDirKey folderPath).isPrefixOf k))).reverse)] ∧
    (rmdirS3 pageSize folderPath st).2 =
      st.filter (fun e => ¬ (normalizeDirKey folderPath).isPrefixOf e.1) := by
  unfold rmdirS3 listFirstPage
  have hlen : (sortStr ((st.map (fun e => e.1)).filter
      (fun k => (normalizeDirKey folderPath).isPrefixOf k))).length =
      ((st.map (fun e => e.1)).filter
        (fun k => (normalizeDirKey folderPath).isPrefixOf k)).length :=
    (sortStr_perm _).length_eq
  have htake : (sortStr ((st.map (fun e => e.1)).filter
      (fun k => (normalizeDirKey folderPath).isPrefixOf k))).take pageSize =
      sortStr ((st.map (fun e => e.1)).filter
        (fun k => (normalizeDirKey folderPath).isPrefixOf k)) :=
    List.take_of_length_le (by rw [hlen]; exact h)
  have hsort2 : sortStr (sortStr ((st.map (fun e => e.1)).filter
      (fun k => (normalizeDirKey folderPath).isPrefixOf k))) =
      sortStr ((st.map (fun e => e.1)).filter
        (fun k => (normalizeDirKey folderPath).isPrefixOf k)) :=
    sortStr_of_pairwise _ (sortStr_pairwise _)
  constructor
  · simp only [htake, hsort2]
  · simp only [htake, hsort2]
    apply List.filter_congr
    intro e he
    have hmem : e.1 ∈ (sortStr ((st.map (fun x => x.1)).filter
        (fun k => (normalizeDirKey folderPath).isPrefixOf k))).reverse ↔
        (normalizeDirKey folderPath).isPrefixOf e.1 = true := by
      rw [List.mem_reverse, (sortStr_perm _).mem_iff, List.mem_filter]
      constructor
      · intro hin
        exact hin.2
      · intro hp
        exact ⟨List.mem_map.mpr ⟨e, he, rfl⟩, hp⟩
    exact decide_eq_decide.mpr (not_congr hmem)

/-- C4 witness: the amended claim evaluated on a store holding one
object under the prefix and one outside it, with a page size that
holds everything. -/
theorem C4_rmdir_amended_witness :
    (rmdirS3 10 ['a'] [(['a', '/', 'x'], []), (['b'], [])]).1 =
      [S3Request.listObjects ['a', '/'],
       S3Request.deleteObjects [['a', '/', 'x']]] ∧
    (rmdirS3 10 ['a'] [(['a', '/', 'x'], []), (['b'], [])]).2 = [(['b'], [])] := by
  have h := C4_rmdir_amended 10 ['a'] [(['a', '/', 'x'], []), (['b'], [])] (by decide)
  constructor
  · rw [h.1]
    decide
  · rw [h.2]
    decide

/-- C10: rmdir issues exactly one ListObjects followed by one
DeleteObjects, unconditionally; when no stored key lies under the
directory-key prefix, the DeleteObjects request is still sent and
carries the empty key list rather than being skipped. -/
theorem C10_rmdir_unconditional_delete (pageSize : Nat) (folderPath : Str) (st : Store)
    (h : ∀ e ∈ st, ¬ (normalizeDirKey folderPath).isPrefixOf e.1) :
    (rmdirS3 pageSize folderPath st).1 =
      [S3Request.listObjects (normalizeDirKey folderPath),
       S3Request.deleteObjects []] := by
  unfold rmdirS3 listFirstPage
  have hfilter : (st.map (fun e => e.1)).filter
      (fun k => (normalizeDirKey folderPath).isPrefixOf k) = [] := by
    rw [List.filter_eq_nil_iff]
    intro k hk
    obtain ⟨e, he, rfl⟩ := List.mem_map.mp hk
    simpa using h e he
  simp only [hfilter]
  simp [sortStr]

/-- C10 witness: the empty bulk delete issued on a store with no
object under the prefix. -/
theorem C10_rmdir_unconditional_delete_witness :
    (rmdirS3 1000 ['a'] [(['b'], [])]).1 =
      [S3Request.listObjects ['a', '/'], S3Request.deleteObjects []] := by
  have h := C10_rmdir_unconditional_delete 1000 ['a'] [(['b'], [])] (by decide)
  rw [h]
  decide

/-! ## Claim C5: exists -/

/-- C5 counterexample: a 403 (not a 404) on the second, directory-key
probe is swallowed by the bare catch and converted to false instead of
propagating. -/
theorem C5_exists_counterexample :
    existsS3 (fun k => if k = ['a', '/'] then Except.error ⟨some 403⟩
      else Except.error ⟨some 404⟩) ['a'] = Except.ok false := by
  decide

/-- C5 (amended): exists probes the file-key form; success yields
true; a non-404 failure of the FIRST probe propagates; exactly on a
404 the directory-key form is probed, where success yields true and
ANY failure (404 or not) yields false rather than propagating. -/
theorem C5_exists_amended (head : Str → Except HeadErr Unit) (p : Str) :
    (∀ u, head (normalizeKey p) = Except.ok u → existsS3 head p = Except.ok true) ∧
    (∀ e, head (normalizeKey p) = Except.error e → e.httpStatusCode ≠ some 404 →
      existsS3 head p = Except.error e) ∧
    (∀ e, head (normalizeKey p) = Except.error e → e.httpStatusCode = some 404 →
      ((∃ u, head (normalizeDirKey p) = Except.ok u) →
        existsS3 head p = Except.ok true) ∧
      (∀ e2, head (normalizeDirKey p) = Except.error e2 →
        existsS3 head p = Except.ok false)) := by
  unfold existsS3
  refine ⟨?_, ?_, ?_⟩
  · intro u hu
    rw [hu]
  · intro e he hne
    rw [he]
    simp only []
    rw [if_neg hne]
  · intro e he h404
    rw [he]
    simp only []
    rw [if_pos h404]
    constructor
    · intro hex
      obtain ⟨u, hu⟩ := hex
      rw [hu]
    · intro e2 he2
      rw [he2]

/-- C5 witness: the amended claim at a marker-only directory: the file
key misses with a 404, the directory key hits, and exists is true. -/
theorem C5_exists_amended_witness :
    existsS3 (fun k => if k = (['a', '/'] : Str) then Except.ok ()
      else Except.error ⟨some 404⟩) ['a'] = Except.ok true :=
  ((C5_exists_amended (fun k => if k = (['a', '/'] : Str) then Except.ok ()
      else Except.error ⟨some 404⟩) ['a']).2.2 ⟨some 404⟩ (by decide) rfl).1
    ⟨(), by decide⟩

/-! ## Claim C6: createWriteStream -/

/-- C6: the continuation wired onto the upload signals finish on the
pass-through when the upload completes and destroys it with the error
when the upload fails; the Upload is constructed with
leavePartsOnError false, so a failed upload leaves no orphaned
parts. -/
theorem C6_write_stream_events (partSizeOpt queueSizeOpt : Option Nat) (e : Str)
    (uploadedParts : Nat) :
    writeStreamEvent (Except.ok ()) = StreamEvent.finish ∧
    writeStreamEvent (Except.error e) = StreamEvent.destroyed e ∧
    (mkUploadParams partSizeOpt queueSizeOpt).leavePartsOnError = false ∧
    orphanedParts (mkUploadParams partSizeOpt queueSizeOpt) true uploadedParts = 0 := by
  refine ⟨rfl, rfl, rfl, ?_⟩
  unfold orphanedParts mkUploadParams
  simp

end NestStorage

namespace NestStorage

/-! ## Claim C7: the CDN host rewrite of signed URLs -/

theorem takeWhile_word_append (w rest : Str) (hw : ∀ ch ∈ w, isWordChar ch = true)
    (hrest : rest.head? = some ':') :
    (w ++ rest).takeWhile isWordChar = w ∧ (w ++ rest).dropWhile isWordChar = rest := by
  induction w with
  | nil =>
    cases rest with
    | nil => simp at hrest
    | cons r rs =>
      simp only [List.head?_cons, Option.some.injEq] at hrest
      subst hrest
      constructor
      · rw [List.nil_append, List.takeWhile_cons, if_neg (by decide)]
      · rw [List.nil_append, List.dropWhile_cons, if_neg (by decide)]
  | cons a as ih =>
    have ha := hw a (by simp)
    have ih2 := ih (fun ch hch => hw ch (List.mem_cons_of_mem _ hch))
    constructor
    · rw [List.cons_append, List.takeWhile_cons, if_pos (by rw [ha]), ih2.1]
    · rw [List.cons_append, List.dropWhile_cons, if_pos (by rw [ha]), ih2.2]

theorem stripScheme_canonical (sch host : Str) (hne : sch ≠ [])
    (hsch : ∀ ch ∈ sch, isWordChar ch = true) :
    stripScheme (sch ++ [':', '/', '/'] ++ host) = host := by
  obtain ⟨a, as, rfl⟩ : ∃ a as, sch = a :: as := by
    cases sch with
    | nil => exact absurd rfl hne
    | cons a as => exact ⟨a, as, rfl⟩
  have ha := hsch a (by simp)
  have haslash : a ≠ '/' := by
    intro hcon
    rw [hcon] at ha
    exact absurd ha (by decide)
  unfold stripScheme
  rw [if_neg ?hfirst]
  case hfirst =>
    intro hcon
    rw [List.append_assoc, List.cons_append] at hcon
    have : a = '/' := by
      have := congrArg (fun l => l.head?) hcon
      simpa [List.take] using this
    exact haslash this
  have hsplit := takeWhile_word_append (a :: as) ([':', '/', '/'] ++ host)
    hsch (by rfl)
  rw [List.append_assoc]
  rw [hsplit.1, hsplit.2]
  rw [if_pos ⟨by simp, by rfl⟩]
  rfl

theorem replaceFirstWith_at (pat repl : Str) (hpat : pat ≠ []) :
    ∀ (a b : Str), (∀ i, i < a.length → ¬ pat.isPrefixOf ((a ++ pat ++ b).drop i)) →
      replaceFirstWith pat repl (a ++ pat ++ b) = a ++ repl ++ b := by
  intro a
  induction a with
  | nil =>
    intro b _
    rw [List.nil_append, List.nil_append]
    obtain ⟨p, ps, rfl⟩ : ∃ p ps, pat = p :: ps := by
      cases pat with
      | nil => exact absurd rfl hpat
      | cons p ps => exact ⟨p, ps, rfl⟩
    rw [List.cons_append]
    simp only [replaceFirstWith]
    rw [if_pos ⟨by simp, List.isPrefixOf_iff_prefix.mpr (by
      rw [← List.cons_append]
      exact List.prefix_append _ b)⟩]
    rw [← List.cons_append, List.drop_left]
  | cons x a' ih =>
    intro b hno
    have h0 := hno 0 (by simp)
    rw [List.cons_append, List.cons_append]
    simp only [replaceFirstWith]
    rw [if_neg ?hm]
    case hm =>
      intro hcon
      apply h0
      rw [List.drop_zero, List.cons_append, List.cons_append]
      exact hcon.2
    rw [ih b ?hshift]
    case hshift =>
      intro i hi
      have := hno (i + 1) (by simpa using Nat.succ_lt_succ hi)
      rw [List.cons_append, List.cons_append] at this
      simpa [List.drop] using this
    rw [List.cons_append, List.cons_append]

/-- C7: with a CDN endpoint configured, getSignedUrl and
getSignedPutUrl both return a URL whose host component is the CDN
host in place of the origin host, with the scheme and the entire
path-and-query component unchanged.  The hypotheses say the two
endpoints are well formed URLs (a nonempty word-character scheme,
colon, double slash, host) and that the origin host does not occur
earlier in the URL than at its host position. -/
theorem C7_signed_url_cdn_rewrite (sch host csch chost pq : Str)
    (hsch_ne : sch ≠ []) (hsch : ∀ ch ∈ sch, isWordChar ch = true)
    (hcsch_ne : csch ≠ []) (hcsch : ∀ ch ∈ csch, isWordChar ch = true)
    (hhost_ne : host ≠ [])
    (hno : ∀ i, i < sch.length + 3 →
      ¬ host.isPrefixOf (((sch ++ [':', '/', '/']) ++ host ++ pq).drop i)) :
    getSignedUrlS3 (sch ++ [':', '/', '/'] ++ host)
        (some (csch ++ [':', '/', '/'] ++ chost)) pq =
      sch ++ [':', '/', '/'] ++ chost ++ pq ∧
    getSignedPutUrlS3 (sch ++ [':', '/', '/'] ++ host)
        (some (csch ++ [':', '/', '/'] ++ chost)) pq =
      sch ++ [':', '/', '/'] ++ chost ++ pq := by
  have hstrip1 : stripScheme (sch ++ [':', '/', '/'] ++ host) = host :=
    stripScheme_canonical sch host hsch_ne hsch
  have hstrip2 : stripScheme (csch ++ [':', '/', '/'] ++ chost) = chost :=
    stripScheme_canonical csch chost hcsch_ne hcsch
  have hlen : (sch ++ [':', '/', '/']).length = sch.length + 3 := by
    simp
  have hrw : replaceFirstWith host chost ((sch ++ [':', '/', '/']) ++ host ++ pq) =
      (sch ++ [':', '/', '/']) ++ chost ++ pq :=
    replaceFirstWith_at host chost hhost_ne (sch ++ [':', '/', '/']) pq
      (fun i hi => hno i (by rw [hlen] at hi; exact hi))
  constructor
  · unfold getSignedUrlS3 presignedUrl
    simp only []
    rw [hstrip1, hstrip2]
    exact hrw
  · unfold getSignedPutUrlS3 presignedUrl
    simp only []
    rw [hstrip1, hstrip2]
    exact hrw

/-- C7 witness: the rewrite evaluated on concrete endpoints
https://s3.ex and https://cdn.ex and a concrete signed path and
query. -/
theorem C7_signed_url_cdn_rewrite_witness :
    getSignedUrlS3 (['h', 't', 't', 'p', 's'] ++ [':', '/', '/'] ++ ['s', '3', '.', 'e', 'x'])
        (some (['h', 't', 't', 'p', 's'] ++ [':', '/', '/'] ++ ['c', 'd', 'n', '.', 'e', 'x']))
        ['/', 'b', '/', 'k', '?', 'q'] =
      ['h', 't', 't', 'p', 's'] ++ [':', '/', '/'] ++ ['c', 'd', 'n', '.', 'e', 'x'] ++
        ['/', 'b', '/', 'k', '?', 'q'] :=
  (C7_signed_url_cdn_rewrite ['h', 't', 't', 'p', 's'] ['s', '3', '.', 'e', 'x']
    ['h', 't', 't', 'p', 's'] ['c', 'd', 'n', '.', 'e', 'x'] ['/', 'b', '/', 'k', '?', 'q']
    (by decide) (by decide) (by decide) (by decide) (by decide) (by decide)).1

end NestStorage
